import Mathlib

/-!
# RobotLibrary: the kinematic controller `SerialKinCtrl`

A shallow embedding of `Control/SerialKinCtrl.h`, and of the gain setters of
`Control/include/SerialLinkBase.h`.

* Scalars (`float` in the source) are the elements of an arbitrary linearly ordered
  field `K`: the theorems hold over the reals, and every definition can be evaluated
  over the rationals. Rounding is not modelled.
* `Eigen::VectorXf` is a `List K`, `Eigen::MatrixXf` of shape `m x n` is a
  `Matrix (Fin m) (Fin n) K`.
* Member functions that mutate the controller return the new controller next to
  their result; arguments taken by non-const reference are returned as well.
* Reading a `std::vector` outside its range is undefined in the source; the
  embedding reads `0` (for a pair of limits, `(0, 0)`) there. The constructor copies
  the limit vectors of the robot model, which have one entry per joint; the joint count
  it stores is not determined by the robot model (see `SerialKinCtrl.new`).
* A `float` that is an infinity or NaN has no counterpart in `K`, and a quotient of `K`
  with divisor `0` is `0`, not the quotient of the source. The loop of
  `scale_velocity_vector` divides by the components of its reference vector, which may be
  exactly zero: its scalar and the vectors scaled by it are `Option`s, and `none` stands
  for "no value in `K`". The theorems that depend on another quotient carry the
  hypothesis that keeps its divisor away from zero.
* The singular value decomposition of the linear algebra library is a parameter
  (`SVDSolver`); theorems about `get_inverse` assume that the decompositions it
  returns are exact.
* The other operations of the collaborators that are not field operations (`M_PI`,
  `sqrt`, the norm of a vector, the angle and the quaternion of a rotation, the state
  of the Cartesian trajectory) are the fields of the parameter `Library`.
-/

namespace RobotLibrary

/-! ## External collaborators -/

/-- The data of an `Eigen::Isometry3f`: the linear part (the rotation matrix) and the
translation. -/
structure Isometry3 (K : Type) where
  linear : Matrix (Fin 3) (Fin 3) K
  translation : Fin 3 → K

namespace Isometry3

variable {K : Type} [LinearOrderedField K]

/-- The transform `Eigen::Isometry3f::Identity()`. -/
def identity : Isometry3 K := ⟨1, 0⟩

/-- The member `rotation()`, which for an isometry is the linear part. -/
def rotation (x : Isometry3 K) : Matrix (Fin 3) (Fin 3) K := x.linear

/-- The product `a*b` of two transforms. -/
def mul (a b : Isometry3 K) : Isometry3 K :=
  ⟨a.linear * b.linear, a.linear.mulVec b.translation + a.translation⟩

/-- The member `inverse()` of an isometry: the linear part is transposed. -/
def inverse (a : Isometry3 K) : Isometry3 K :=
  ⟨a.linear.transpose, -(a.linear.transpose.mulVec a.translation)⟩

end Isometry3

/-- The member `inverse()` of an `Eigen::Matrix3f`. -/
def inverse3 {K : Type} [LinearOrderedField K] (A : Matrix (Fin 3) (Fin 3) K) :
    Matrix (Fin 3) (Fin 3) K :=
  A.det⁻¹ • A.adjugate

/-- Modelled from the spec: the trajectory generator `CartesianTrajectory`
(`CartesianTrajectory.h` is not part of the sources). The object is the record of the
arguments of its constructor `CartesianTrajectory(start, end, startTime, endTime)`; its
member `get_state` is the field `get_state` of `Library`. -/
structure CartesianTrajectory (K : Type) where
  startPose : Isometry3 K
  endPose : Isometry3 K
  startTime : K
  endTime : K

/-- The operations of the collaborators that are not field operations, parameters of the
embedding: the constant `M_PI` and `sqrt` of `<cmath>`; for Eigen, `norm()` of a
`Vector3f`, `AngleAxisf(R).angle()` and `Quaternionf(R).vec()` of a rotation matrix `R`;
and `CartesianTrajectory::get_state`, which gives the desired pose, velocity and
acceleration at a time. -/
structure Library (K : Type) where
  M_PI : K
  sqrt : K → K
  norm : (Fin 3 → K) → K
  angle : Matrix (Fin 3) (Fin 3) K → K
  vec : Matrix (Fin 3) (Fin 3) K → Fin 3 → K
  get_state : CartesianTrajectory K → K → Isometry3 K × (Fin 6 → K) × (Fin 6 → K)

/-- Modelled from the spec: the trajectory generator `MultiPointTrajectory`
(`MultiPointTrajectory.h` is not part of the sources). Only its constructor
`MultiPointTrajectory(start, end, startTime, endTime)` is used here, so the object is the
record of its boundary values and time window. -/
structure MultiPointTrajectory (K : Type) where
  startPoint : List K
  endPoint : List K
  startTime : K
  endTime : K
deriving DecidableEq

/-- Modelled from the spec: the robot model `SerialLink` (`SerialLink.h` is not part of the
sources), reduced to the snapshot the controller reads: joint count, joint positions and
velocities, position limits `(lower, upper)` and velocity limits, the pose of the
end-effector, the entries `jacobian i j` of the `6 x n` Jacobian (`j` the joint), and the
partial derivative of a `6 x n` Jacobian with respect to a joint. -/
structure SerialLink (K : Type) where
  numJoints : ℕ
  q : List K
  qdot : List K
  positionLimits : List (K × K)
  velocityLimits : List K
  endpointPose : Isometry3 K
  jacobian : Fin 6 → ℕ → K
  partialDerivative : (n : ℕ) → Matrix (Fin 6) (Fin n) K → ℕ → Matrix (Fin 6) (Fin n) K

namespace SerialLink

variable {K : Type} [LinearOrderedField K]

def get_number_of_joints (r : SerialLink K) : ℕ := r.numJoints

def get_position_limits (r : SerialLink K) : List (K × K) := r.positionLimits

def get_velocity_limits (r : SerialLink K) : List K := r.velocityLimits

def get_joint_positions (r : SerialLink K) : List K := r.q

def get_joint_position (r : SerialLink K) (i : ℕ) : K := r.q.getD i 0

def get_joint_velocity (r : SerialLink K) (i : ℕ) : K := r.qdot.getD i 0

def get_endpoint_pose (r : SerialLink K) : Isometry3 K := r.endpointPose

/-- The Jacobian, read as a matrix with one column for each of the `n` joints. -/
def get_jacobian (r : SerialLink K) (n : ℕ) : Matrix (Fin 6) (Fin n) K :=
  Matrix.of fun i j => r.jacobian i j

def get_partial_derivative (r : SerialLink K) {n : ℕ} (J : Matrix (Fin 6) (Fin n) K)
    (i : ℕ) : Matrix (Fin 6) (Fin n) K := r.partialDerivative n J i

end SerialLink

/-! ## Singular value decomposition -/

/-- The data read from an `Eigen::JacobiSVD<Eigen::MatrixXf>` object built with
`ComputeFullU | ComputeFullV` from an `m x n` matrix: `matrixU()` is `m x m`,
`singularValues()` has `min m n` entries and `matrixV()` is `n x n`. -/
structure JacobiSVD (K : Type) (m n : ℕ) where
  matrixU : Matrix (Fin m) (Fin m) K
  singularValues : Fin (min m n) → K
  matrixV : Matrix (Fin n) (Fin n) K

namespace JacobiSVD

variable {K : Type} [LinearOrderedField K] {m n : ℕ}

/-- The `m x n` matrix `diag(s)` with the singular values on its main diagonal. -/
def sigma (d : JacobiSVD K m n) : Matrix (Fin m) (Fin n) K :=
  Matrix.of fun i j =>
    if h : (i : ℕ) = (j : ℕ) then
      d.singularValues ⟨i, lt_min i.isLt (h ▸ j.isLt)⟩
    else 0

/-- Singular value `j` of the decomposition of a square matrix, indexed by `Fin n`. -/
def sq {n : ℕ} (d : JacobiSVD K n n) (j : Fin n) : K :=
  d.singularValues (Fin.cast (min_eq_left (le_refl n)).symm j)

/-- The decomposition is exact for `A`: `U` and `V` are orthogonal and
`A = U * diag(s) * Vᵀ`. -/
def Exact (d : JacobiSVD K m n) (A : Matrix (Fin m) (Fin n) K) : Prop :=
  d.matrixU.transpose * d.matrixU = 1 ∧ d.matrixV.transpose * d.matrixV = 1
    ∧ A = d.matrixU * d.sigma * d.matrixV.transpose

end JacobiSVD

/-- The decomposition routine of the linear algebra library (the constructor of
`Eigen::JacobiSVD`), a parameter of the embedding. -/
abbrev SVDSolver (K : Type) : Type := ∀ m n : ℕ, Matrix (Fin m) (Fin n) K → JacobiSVD K m n

/-- A decomposition routine that is exact on every matrix whose only non-zero entries are
on the main diagonal: `U = 1`, `V = 1` and `s` the main diagonal. -/
def diagonalSVD {K : Type} [LinearOrderedField K] : SVDSolver K := fun m n A =>
  { matrixU := 1
    singularValues := fun j =>
      A ⟨j, lt_of_lt_of_le j.isLt (min_le_left m n)⟩
        ⟨j, lt_of_lt_of_le j.isLt (min_le_right m n)⟩
    matrixV := 1 }

/-! ## The controller state -/

/-- The data members of `class SerialKinCtrl`: `pLim[i]` is the pair
`(pLim[i][0], pLim[i][1])`. -/
structure SerialKinCtrl (K : Type) where
  n : ℕ
  robot : SerialLink K
  pLim : List (K × K)
  vLim : List K
  jointTrajectory : MultiPointTrajectory K
  cartesianTrajectory : CartesianTrajectory K
  k : K

namespace SerialKinCtrl

variable {K : Type} [LinearOrderedField K]

/-- The constructor `SerialKinCtrl::SerialKinCtrl(const SerialLink &serial)`. The
trajectories are default-constructed (taken to be the empty joint trajectory and the
Cartesian trajectory that stays at the identity pose) and `k = 1.0`.

Members are initialised in the order of their declaration, and `n` is declared before
`robot` (lines 27-28): the initialiser `n(robot.get_number_of_joints())` on line 46 runs
before `robot(serial)` and reads a `robot` that is not constructed yet. The value it stores
is therefore not determined by `serial`; it is the argument `n` here, and every `n` gives a
state the constructor may leave. The members `pLim` and `vLim` are declared after `robot`
and are copied from the constructed `robot`. A negative value of the `int` is not
represented: `n` is the size of the vectors and matrices that the member functions build
(`grad(this->n)`, `W(this->n, this->n)`). -/
def new (serial : SerialLink K) (n : ℕ) : SerialKinCtrl K where
  n := n
  robot := serial
  pLim := serial.get_position_limits
  vLim := serial.get_velocity_limits
  jointTrajectory := ⟨[], [], 0, 0⟩
  cartesianTrajectory := ⟨Isometry3.identity, Isometry3.identity, 0, 0⟩
  k := 1

/-! ### `scale_velocity_vector` -/

/-- The body of the `for` loop of `scale_velocity_vector` at joint `i`, acting on the pair
(stored velocity limits, scalar `s`). The statement `vMin = this->vLim[i] *= -1;` is a
compound assignment: it negates the stored limit, and both `vMin` and `vMax` then read the
negated entry.

The scalar is `none` when it has no value in `K`. The right operand of `&&` is evaluated
only when the left one holds; when that happens with `ref[i]` exactly zero, the quotient
`vMin/ref[i]` or `vMax/ref[i]` is an infinity of `float` whose sign is that of the zero, the
comparison with `s` depends on that sign, and the product assigned to `s` is infinite: the
scalar is `none` from then on. The stored limit is negated in every case. -/
def scale_velocity_step (ref : List K) (st : List K × Option K) (i : ℕ) :
    List K × Option K :=
  let vLim := st.1.set i (st.1.getD i 0 * -1)
  let vMin := vLim.getD i 0
  let vMax := vLim.getD i 0
  (vLim, st.2.bind fun s =>
    if ref.getD i 0 < vMin ∧ ref.getD i 0 = 0 then none
    else if ref.getD i 0 < vMin ∧ vMin / ref.getD i 0 < s then
      some (99 / 100 * vMin / ref.getD i 0)
    else if ref.getD i 0 > vMax ∧ ref.getD i 0 = 0 then none
    else if ref.getD i 0 > vMax ∧ vMax / ref.getD i 0 < s then
      some (99 / 100 * vMax / ref.getD i 0)
    else some s)

/-- The loop of `scale_velocity_vector`: `s` starts at `1.0`, joints `0 .. ref.size()-1`
are visited in order. Returns the stored limits and `s` after the loop. -/
def scale_velocity_loop (c : SerialKinCtrl K) (ref : List K) : List K × Option K :=
  (List.range ref.length).foldl (scale_velocity_step ref) (c.vLim, some 1)

/-- The scalar `s` that `scale_velocity_vector` multiplies `vec` by; `none` when a division
by a component of `ref` that is exactly zero was evaluated. -/
def scale_factor (c : SerialKinCtrl K) (ref : List K) : Option K :=
  (scale_velocity_loop c ref).2

/-- The function `bool SerialKinCtrl::scale_velocity_vector(VectorXf &vec, const VectorXf ref)`:
returns the result, the new value of `vec`, and the controller after the call. The new
value of `vec` is `none` when the scalar is: the entries of `vec` are then infinities or
NaN. The result `true` and the stored limits do not depend on it. -/
def scale_velocity_vector (c : SerialKinCtrl K) (vec ref : List K) :
    Bool × Option (List K) × SerialKinCtrl K :=
  if vec.length ≠ ref.length then (false, some vec, c)
  else
    (true, (scale_factor c ref).map (fun s => vec.map fun v => v * s),
      { c with vLim := (scale_velocity_loop c ref).1 })

/-! ### `set_joint_target` -/

/-- Lines 76-77 of `set_joint_target` for one component `t = target[i]` with
`lo = pLim[i][0]`, `hi = pLim[i][1]`: the two `if` statements run one after the other, the
second one on the value the first one left. -/
def clamp_target (lo hi t : K) : K :=
  let t := if t ≤ lo then lo + 1 / 100 else t
  let t := if t ≥ hi then hi - 1 / 100 else t
  t

/-- The body of the `for` loop of `set_joint_target` at joint `i`, acting on the pair
(`target`, `endTime`): `target[i]` is overwritten with its clamped value (the value it
already has when neither `if` fires), then `dq`, `dt` are computed from it; `abs` is the
absolute value of a `float`. -/
def set_joint_target_step (c : SerialKinCtrl K) (st : List K × K) (i : ℕ) : List K × K :=
  let target := st.1.set i
    (clamp_target (c.pLim.getD i (0, 0)).1 (c.pLim.getD i (0, 0)).2 (st.1.getD i 0))
  let endTime := st.2
  let dq := |target.getD i 0 - c.robot.get_joint_position i|
  let dt := (15 * dq) / (8 * c.vLim.getD i 0)
  if dq ≠ 0 ∧ dt > endTime then (target, dt) else (target, endTime)

/-- The function `bool SerialKinCtrl::set_joint_target(Eigen::VectorXf &target)`: returns
the result, the new value of `target`, and the controller after the call. `startTime` is
`0.0` and `endTime` starts at `1.0`. -/
def set_joint_target (c : SerialKinCtrl K) (target : List K) :
    Bool × List K × SerialKinCtrl K :=
  if target.length ≠ c.n then (false, target, c)
  else
    let st := (List.range c.n).foldl (set_joint_target_step c) (target, 1)
    (true, st.1,
      { c with jointTrajectory := ⟨c.robot.get_joint_positions, st.1, 0, st.2⟩ })

/-- Entry `i` of the target vector once the loop of `set_joint_target` has passed joint `i`. -/
def clampedAt (c : SerialKinCtrl K) (target : List K) (i : ℕ) : K :=
  clamp_target (c.pLim.getD i (0, 0)).1 (c.pLim.getD i (0, 0)).2 (target.getD i 0)

/-- The duration `dt` computed for joint `i` in the loop of `set_joint_target`. -/
def durationAt (c : SerialKinCtrl K) (target : List K) (i : ℕ) : K :=
  15 * |clampedAt c target i - c.robot.get_joint_position i| / (8 * c.vLim.getD i 0)

/-! ### `get_joint_limit_weighting` -/

/-- The value of `W(i,i)` after iteration `i` of the loop of `get_joint_limit_weighting`,
for a joint with limits `lo = pLim[i][0]`, `hi = pLim[i][1]`, position `q` and velocity
`qdot`: the entry stays at the `1` of `setIdentity` unless `dpdq*qdot > 0`. -/
def joint_limit_weight (lo hi q qdot : K) : K :=
  let upper := hi - q
  let lower := q - lo
  let range := hi - lo
  let dpdq := (range * range * (2 * q - hi - lo)) / (4 * upper * upper * lower * lower)
  if dpdq * qdot > 0 then
    let penalty := range * range / (4 * upper * lower)
    let penalty := if penalty < 1 then 1 else penalty
    1 / penalty
  else 1

/-- The function `Eigen::MatrixXf SerialKinCtrl::get_joint_limit_weighting()`: the identity
matrix with entry `(i,i)` overwritten in iteration `i`. -/
def get_joint_limit_weighting (c : SerialKinCtrl K) : Matrix (Fin c.n) (Fin c.n) K :=
  Matrix.diagonal fun i =>
    joint_limit_weight (c.pLim.getD i (0, 0)).1 (c.pLim.getD i (0, 0)).2
      (c.robot.get_joint_position i) (c.robot.get_joint_velocity i)

/-! ### `get_inverse` -/

/-- The function `Eigen::MatrixXf SerialKinCtrl::get_inverse(const Eigen::MatrixXf &A)` for
an `m x n` matrix `A`. The loop runs over `i < A.cols()`, `j < A.rows()` and reads `s(j)`
and `V(i,j)`; `s` has `min m n` entries and `V` is `n x n`, so these reads are in range
when `m ≤ n`. As `invA` starts at zero, `invA(i,j) += V(i,j)/s(j)` leaves
`invA(i,j) = V(i,j)/s(j)`. For `m > n > 0` the reads are out of range and there is no
result; for `n = 0` the loop body never runs. -/
def get_inverse (svd : SVDSolver K) {m n : ℕ} (A : Matrix (Fin m) (Fin n) K) :
    Option (Matrix (Fin n) (Fin m) K) :=
  let SVD := svd m n A
  let V := SVD.matrixV
  let s := SVD.singularValues
  if h : m ≤ n then
    let invA : Matrix (Fin n) (Fin m) K := Matrix.of fun i j =>
      if s (Fin.cast (min_eq_left h).symm j) > 1 / 1000000 then
        V i (Fin.castLE h j) / s (Fin.cast (min_eq_left h).symm j)
      else 0
    some (invA * SVD.matrixU.transpose)
  else if n = 0 then some 0
  else none

/-- The function `SerialKinCtrl::get_inverse(const MatrixXf &A, const MatrixXf &W)` for an
`m x n` matrix `A` and a `p x q` matrix `W` (`W.rows() = p`, `W.cols() = q`). -/
def get_inverse_weighted (svd : SVDSolver K) {m n p q : ℕ} (A : Matrix (Fin m) (Fin n) K)
    (W : Matrix (Fin p) (Fin q) K) : Option (Matrix (Fin n) (Fin m) K) :=
  if hW : q ≠ p then some 0
  else if hA : n ≠ p then some 0
  else
    have hp : n = p := not_not.mp hA
    have hq : n = q := hp.trans (not_not.mp hW).symm
    (get_inverse svd (W.submatrix (Fin.cast hp) (Fin.cast hq))).bind fun invW =>
      let invWAt := invW * A.transpose
      (get_inverse svd (A * invWAt)).map fun inner => invWAt * inner

/-! ### `set_target_pose` -/

/-- Lines 137-155 of `set_target_pose`: the new value of `time`, given the norm `distance`
of the translation and the angle `angle = dR.angle()` of the rotation between the current
and the target pose. The variable `distance` is reused for the angle on line 148. -/
def set_target_pose_time (M_PI time distance angle : K) : K :=
  let maxSpeed : K := 1
  let time := if distance / time > maxSpeed then distance / maxSpeed else time
  let maxSpeed : K := 21 / 2
  let distance := angle
  let distance := if distance > M_PI then 2 * M_PI - distance else distance
  let time := if distance / time > maxSpeed then distance / maxSpeed else time
  time

/-- The function `bool SerialKinCtrl::set_target_pose(Eigen::Isometry3f &target, float &time)`:
returns the result, the new value of `time`, and the controller after the call. -/
def set_target_pose (lib : Library K) (c : SerialKinCtrl K) (target : Isometry3 K)
    (time : K) : Bool × K × SerialKinCtrl K :=
  if time ≤ 0 then (false, time, c)
  else
    let current := c.robot.get_endpoint_pose
    let dR := lib.angle (inverse3 current.rotation * target.rotation)
    let distance := lib.norm (target.translation - current.translation)
    let time := set_target_pose_time lib.M_PI time distance dR
    (true, time, { c with cartesianTrajectory := ⟨current, target, 0, time⟩ })

/-- The angle that `set_target_pose` compares with the angular speed limit: `dR.angle()`
mapped to the shortest path on line 149. -/
def shortest_angle (M_PI angle : K) : K :=
  if angle > M_PI then 2 * M_PI - angle else angle

/-- The value of `distance` on line 134 of `set_target_pose`: the norm of the translation
from the current end-effector pose to the target. -/
def pose_distance (lib : Library K) (c : SerialKinCtrl K) (target : Isometry3 K) : K :=
  lib.norm (target.translation - c.robot.get_endpoint_pose.translation)

/-- The value of `dR.angle()` in `set_target_pose`: the angle of the rotation from the
current end-effector pose to the target. -/
def pose_angle (lib : Library K) (c : SerialKinCtrl K) (target : Isometry3 K) : K :=
  lib.angle (inverse3 c.robot.get_endpoint_pose.rotation * target.rotation)

/-! ### `get_pose_error`, `optimise_manipulability`, `get_cartesian_control` -/

/-- The function `SerialKinCtrl::get_pose_error(desired, actual)`: entries `0..2` are the
difference of the translations, entries `3..5` the vector part of the quaternion of the
rotation of `desired*actual.inverse()`. -/
def get_pose_error (lib : Library K) (desired actual : Isometry3 K) : Fin 6 → K :=
  let head := desired.translation - actual.translation
  let Re := desired.mul actual.inverse
  let tail := lib.vec Re.rotation
  fun i => if h : (i : ℕ) < 3 then head ⟨i, h⟩ else tail ⟨i - 3, by omega⟩

/-- The function `SerialKinCtrl::optimise_manipulability(scalar, J)`. It reads `n` and
`robot` of the controller only. For a positive `scalar` the statement `grad[0] = 0.0`
writes entry `0` of a vector of size `n`, which is out of range when `n = 0`: there is no
result then. -/
def optimise_manipulability (lib : Library K) (svd : SVDSolver K) (c : SerialKinCtrl K)
    (scalar : K) (J : Matrix (Fin 6) (Fin c.n) K) : Option (Fin c.n → K) :=
  let JJt := J * J.transpose
  (get_inverse svd JJt).bind fun inv =>
    let invJ := J.transpose * inv
    let mu := lib.sqrt JJt.det
    if scalar ≤ 0 then some fun _ => 0
    else if c.n = 0 then none
    else some fun i =>
      if (i : ℕ) = 0 then 0
      else scalar * mu * (c.robot.get_partial_derivative J i * invJ).trace

/-- Lines 181-184 of `get_cartesian_control`: the weighted pseudoinverse `invJ` of the
Jacobian, `W*Jᵀ*get_inverse(J*W*Jᵀ)` with `W = get_joint_limit_weighting()`. -/
def weighted_pseudoinverse (svd : SVDSolver K) (c : SerialKinCtrl K) :
    Option (Matrix (Fin c.n) (Fin 6) K) :=
  let J : Matrix (Fin 6) (Fin c.n) K := c.robot.get_jacobian c.n
  let W := get_joint_limit_weighting c
  let invWJt := W * J.transpose
  (get_inverse svd (J * invWJt)).map fun inner => invWJt * inner

/-- The task-space velocity `xdot_d + k*get_pose_error(x_d, x)` on line 187 of
`get_cartesian_control`, with `x_d`, `xdot_d` the desired state at `time`. -/
def desired_task_velocity (lib : Library K) (c : SerialKinCtrl K) (time : K) : Fin 6 → K :=
  let x_d := (lib.get_state c.cartesianTrajectory time).1
  let xdot_d := (lib.get_state c.cartesianTrajectory time).2.1
  xdot_d + c.k • get_pose_error lib x_d c.robot.get_endpoint_pose

/-- The function `Eigen::VectorXf SerialKinCtrl::get_cartesian_control(const float &time)`:
returns the joint velocity and the controller after the call (the calls of
`scale_velocity_vector` act on the controller). There is no result when `get_inverse` has
none. `optimise_manipulability` runs after the first call of `scale_velocity_vector`, which
leaves `n` and `robot`, the members it reads, as they are in `c`.

The joint velocity is `none` when a call of `scale_velocity_vector` leaves a vector without
value. When that is the scaled range-space vector, the sum `qdot` and the returned sum have
no value either; the second call still runs its loop over the `n` entries of `qdot`, and as
the limits it stores depend on the number of entries of its reference only, `qdot_N`, a
vector of the same size, stands for `qdot` in that call. -/
def get_cartesian_control (lib : Library K) (svd : SVDSolver K) (c : SerialKinCtrl K)
    (time : K) : Option (Option (List K) × SerialKinCtrl K) :=
  let J : Matrix (Fin 6) (Fin c.n) K := c.robot.get_jacobian c.n
  let W := get_joint_limit_weighting c
  (weighted_pseudoinverse svd c).bind fun invJ =>
    let qdot_R := List.ofFn (invJ.mulVec (desired_task_velocity lib c time))
    let r1 := scale_velocity_vector c qdot_R qdot_R
    if c.n ≤ 6 then some (r1.2.1, r1.2.2)
    else
      let N := 1 - invJ * J
      (optimise_manipulability lib svd c (1 / 2) J).map fun grad =>
        let qdot_N := List.ofFn ((N * W).mulVec grad)
        match r1.2.1 with
        | some qdot_R =>
          let qdot := List.zipWith (fun a b => a + b) qdot_R qdot_N
          let r2 := scale_velocity_vector r1.2.2 qdot_N qdot
          (r2.2.1.map fun qdot_N => List.zipWith (fun a b => a + b) qdot_R qdot_N, r2.2.2)
        | none => (none, (scale_velocity_vector r1.2.2 qdot_N qdot_N).2.2)

/-! ### `set_feedback_gain` -/

/-- The function `bool SerialKinCtrl::set_feedback_gain(const float &gain)`: returns the
result and the controller after the call. -/
def set_feedback_gain (c : SerialKinCtrl K) (gain : K) : Bool × SerialKinCtrl K :=
  if gain < 0 then (false, c) else (true, { c with k := gain })

/-! ### Reachable states and the penalty matrix -/

/-- The controller states that can be reached: the constructor, followed by any sequence
of the public member functions that act on the controller. -/
inductive Reachable (lib : Library K) (svd : SVDSolver K) : SerialKinCtrl K → Prop
  | construct (serial : SerialLink K) (n : ℕ) :
      Reachable lib svd (SerialKinCtrl.new serial n)
  | joint_target (c : SerialKinCtrl K) (target : List K) :
      Reachable lib svd c → Reachable lib svd (set_joint_target c target).2.2
  | feedback_gain (c : SerialKinCtrl K) (gain : K) :
      Reachable lib svd c → Reachable lib svd (set_feedback_gain c gain).2
  | target_pose (c : SerialKinCtrl K) (target : Isometry3 K) (time : K) :
      Reachable lib svd c → Reachable lib svd (set_target_pose lib c target time).2.2
  | cartesian_control (c c' : SerialKinCtrl K) (time : K) (qdot : Option (List K)) :
      Reachable lib svd c → get_cartesian_control lib svd c time = some (qdot, c') →
      Reachable lib svd c'

/-- The penalty matrix `P = W⁻¹` of the matrix `W` returned by
`get_joint_limit_weighting`: the diagonal matrix with entries `p_i = 1 / W(i,i)`. -/
def penalty_matrix (c : SerialKinCtrl K) : Matrix (Fin c.n) (Fin c.n) K :=
  Matrix.diagonal fun i => 1 / get_joint_limit_weighting c i i

end SerialKinCtrl

/-! ## The base class `SerialLinkBase` -/

/-- The data members that `set_cartesian_gains` and `set_cartesian_gain_format` of
`SerialLinkBase<DataType>` read and write, under the names used in the function bodies
(`this->gainFormat`, `this->D`, `this->K`; the class declares them as `_gainFormat`,
`_cartesianDamping` and `_cartesianStiffness`). -/
structure SerialLinkBase (DataType : Type) where
  gainFormat : Matrix (Fin 6) (Fin 6) DataType
  D : Matrix (Fin 6) (Fin 6) DataType
  K : Matrix (Fin 6) (Fin 6) DataType

namespace SerialLinkBase

variable {DataType : Type} [LinearOrderedField DataType]

/-- The matrix that initialises `_gainFormat` on lines 125-131:
`diag(1, 1, 1, 0.1, 0.1, 0.1)`. -/
def defaultGainFormat : Matrix (Fin 6) (Fin 6) DataType :=
  Matrix.diagonal fun i => if (i : ℕ) < 3 then 1 else 1 / 10

/-- The default member initialisers on lines 125-135: the damping is `0.1` and the
stiffness `1.0` times the gain format. -/
def initial : SerialLinkBase DataType where
  gainFormat := defaultGainFormat
  D := (1 / 10 : DataType) • defaultGainFormat
  K := (1 : DataType) • defaultGainFormat

/-- The function `SerialLinkBase::set_cartesian_gains(stiffness, damping)`: returns the
result and the object after the call. Both branches end in `return false;`. -/
def set_cartesian_gains (s : SerialLinkBase DataType) (stiffness damping : DataType) :
    Bool × SerialLinkBase DataType :=
  if stiffness < 0 ∨ damping < 0 then (false, s)
  else (false, { s with D := damping • s.gainFormat, K := stiffness • s.gainFormat })

/-- The member `norm()` of an Eigen matrix: the square root of the sum of the squares of
the entries. -/
def norm (lib : Library DataType) (M : Matrix (Fin 6) (Fin 6) DataType) : DataType :=
  lib.sqrt (∑ i, ∑ j, M i j ^ 2)

/-- The function `SerialLinkBase::set_cartesian_gain_format(format)`: returns the result and
the object after the call. The branch that reports "Matrix does not appear to be symmetric"
and returns `false` is the one taken when `(format - format.transpose()).norm() < 1e-04`. -/
def set_cartesian_gain_format (lib : Library DataType) (s : SerialLinkBase DataType)
    (format : Matrix (Fin 6) (Fin 6) DataType) : Bool × SerialLinkBase DataType :=
  if norm lib (format - format.transpose) < 1 / 10000 then (false, s)
  else (true, { s with gainFormat := format })

end SerialLinkBase

/-! ## Example robots -/

/-- A two-joint robot at rest at the origin, limits `[-1, 1]` and `1` per second. In this
and the other example robots joint `j` moves the end-effector along coordinate `j` of the
task space, so the Jacobian is constant, and the end-effector is at the identity pose. -/
def twoJointRobot : SerialLink ℚ where
  numJoints := 2
  q := [0, 0]
  qdot := [0, 0]
  positionLimits := [(-1, 1), (-1, 1)]
  velocityLimits := [1, 1]
  endpointPose := Isometry3.identity
  jacobian := fun i j => if (i : ℕ) = j then 1 else 0
  partialDerivative := fun _ _ _ => 0

/-- A one-joint robot at rest at the origin, limits `[-1, 1]` rad and `1` rad/s. -/
def oneJointRobot : SerialLink ℚ where
  numJoints := 1
  q := [0]
  qdot := [0]
  positionLimits := [(-1, 1)]
  velocityLimits := [1]
  endpointPose := Isometry3.identity
  jacobian := fun i j => if (i : ℕ) = j then 1 else 0
  partialDerivative := fun _ _ _ => 0

/-- A one-joint robot whose joint range `[0, 0.005]` is narrower than the margin `0.01`. -/
def narrowJointRobot : SerialLink ℚ where
  numJoints := 1
  q := [0]
  qdot := [0]
  positionLimits := [(0, 1 / 200)]
  velocityLimits := [1]
  endpointPose := Isometry3.identity
  jacobian := fun i j => if (i : ℕ) = j then 1 else 0
  partialDerivative := fun _ _ _ => 0

/-- A one-joint robot at `q = 0.5` moving with velocity `1` toward its upper limit `1`. -/
def movingJointRobot : SerialLink ℚ where
  numJoints := 1
  q := [1 / 2]
  qdot := [1]
  positionLimits := [(-1, 1)]
  velocityLimits := [1]
  endpointPose := Isometry3.identity
  jacobian := fun i j => if (i : ℕ) = j then 1 else 0
  partialDerivative := fun _ _ _ => 0

/-- A seven-joint robot at rest at the origin, limits `[-1, 1]` and `1` per second. Joint
`j < 6` moves the end-effector along coordinate `j` of the task space and the seventh joint
moves it along coordinate `0` again, so the robot is redundant. -/
def sevenJointRobot : SerialLink ℚ where
  numJoints := 7
  q := List.replicate 7 0
  qdot := List.replicate 7 0
  positionLimits := List.replicate 7 (-1, 1)
  velocityLimits := List.replicate 7 1
  endpointPose := Isometry3.identity
  jacobian := fun i j => if (i : ℕ) = j ∨ ((i : ℕ) = 0 ∧ j = 6) then 1 else 0
  partialDerivative := fun _ _ _ => 0

/-- A one-joint robot at `q = 0.75` moving with velocity `1` toward its upper limit `1`. -/
def approachingJointRobot : SerialLink ℚ where
  numJoints := 1
  q := [3 / 4]
  qdot := [1]
  positionLimits := [(-1, 1)]
  velocityLimits := [1]
  endpointPose := Isometry3.identity
  jacobian := fun i j => if (i : ℕ) = j then 1 else 0
  partialDerivative := fun _ _ _ => 0

/-! ## Example library and poses -/

/-- A library for the examples. Its `norm` is the Euclidean norm on vectors with at most
one non-zero entry, its `angle` and `vec` are those of the identity rotation, its `sqrt` is
exact at `0` and `1`, and `M_PI` is the decimal expansion given in `<cmath>`. Its
trajectory moves along the straight line from the start to the end pose at constant
velocity, keeping the orientation of the start pose. -/
def exampleLibrary : Library ℚ where
  M_PI := 314159265358979323846 / 100000000000000000000
  sqrt := fun x => x
  norm := fun v => |v 0| + |v 1| + |v 2|
  angle := fun _ => 0
  vec := fun R i =>
    if (i : ℕ) = 0 then (R 2 1 - R 1 2) / 4
    else if (i : ℕ) = 1 then (R 0 2 - R 2 0) / 4
    else (R 1 0 - R 0 1) / 4
  get_state := fun traj t =>
    (⟨traj.startPose.linear,
        traj.startPose.translation
          + ((t - traj.startTime) / (traj.endTime - traj.startTime))
            • (traj.endPose.translation - traj.startPose.translation)⟩,
      fun i =>
        if h : (i : ℕ) < 3 then
          (traj.endPose.translation ⟨i, h⟩ - traj.startPose.translation ⟨i, h⟩)
            / (traj.endTime - traj.startTime)
        else 0,
      fun _ => 0)

/-- The pose with the orientation of the identity, translated by `x` along the first
axis. -/
def translationPose (x : ℚ) : Isometry3 ℚ :=
  ⟨1, fun i => if (i : ℕ) = 0 then x else 0⟩

/-- The controller of the two-joint robot tracking a Cartesian trajectory from the
identity pose to the pose translated by `(0.5, -0.9, 0)`, over the time window `[0, 2]`. -/
def trackingController : SerialKinCtrl ℚ :=
  { SerialKinCtrl.new twoJointRobot 2 with
    cartesianTrajectory :=
      ⟨Isometry3.identity,
        ⟨1, fun i => if (i : ℕ) = 0 then 1 / 2 else if (i : ℕ) = 1 then -9 / 10 else 0⟩,
        0, 2⟩ }

/-- The controller of the seven-joint robot tracking a Cartesian trajectory from the
identity pose to the pose translated by `2` along the first axis, over the time window
`[0, 2]`. -/
def redundantController : SerialKinCtrl ℚ :=
  { SerialKinCtrl.new sevenJointRobot 7 with
    cartesianTrajectory := ⟨Isometry3.identity, translationPose 2, 0, 2⟩ }

/-- The full-rank `1 x 1` matrix `(0.0005)`. -/
def smallMatrix : Matrix (Fin 1) (Fin 1) ℚ := Matrix.of fun _ _ => 1 / 2000

/-- The `2 x 1` matrix with column `(1, 0)`, of full column rank. -/
def tallMatrix : Matrix (Fin 2) (Fin 1) ℚ := Matrix.of fun i _ => if (i : ℕ) = 0 then 1 else 0

/-- The `1 x 2` matrix `(1 0)`, which is not square. -/
def wideMatrix : Matrix (Fin 1) (Fin 2) ℚ := Matrix.of fun _ j => if (j : ℕ) = 0 then 1 else 0

/-- A gain format that is not symmetric: `diag(1, 1, 1, 0.1, 0.1, 0.1)` with the entries
`(0, 1)` and `(2, 3)` raised to `0.5`. The norm of its difference with its transpose is `1`. -/
def skewedFormat : Matrix (Fin 6) (Fin 6) ℚ :=
  Matrix.of fun i j =>
    if i = j then (if (i : ℕ) < 3 then 1 else 1 / 10)
    else if ((i : ℕ) = 0 ∧ (j : ℕ) = 1) ∨ ((i : ℕ) = 2 ∧ (j : ℕ) = 3) then 1 / 2
    else 0

/-- The `2 x 2` matrix `diag(2, 0.0000001)`, whose second singular value is below `1e-6`. -/
def nearSingularMatrix : Matrix (Fin 2) (Fin 2) ℚ :=
  Matrix.diagonal fun j => if (j : ℕ) = 0 then 2 else 1 / 10000000

open SerialKinCtrl

/-! ## Theorems -/

section ScaleVelocity

/-- C1: on the two-joint robot with limits `1` rad/s, `scale_velocity_vector(v, v)` with
`v = (0.5, -0.9)` returns `true` and leaves `v = (-0.99, 1.782)`: the second component
exceeds the limit `1` that was stored before the call, although `v` was feasible. -/
theorem scale_velocity_vector_exceeds_limit :
    scale_velocity_vector (SerialKinCtrl.new twoJointRobot 2) [1 / 2, -9 / 10] [1 / 2, -9 / 10]
        = (true, some [-99 / 100, 891 / 500],
            { SerialKinCtrl.new twoJointRobot 2 with vLim := [-1, -1] })
      ∧ (SerialKinCtrl.new twoJointRobot 2).vLim = [1, 1]
      ∧ ¬ |(891 / 500 : ℚ)| ≤ 1 := by
  refine ⟨?_, ?_, ?_⟩
  · norm_num [scale_velocity_vector, scale_factor, scale_velocity_loop, scale_velocity_step,
      SerialKinCtrl.new, twoJointRobot, List.range_succ, SerialLink.get_velocity_limits]
  · rfl
  · norm_num [abs_of_pos]

/-- C2: on the one-joint robot with limit `1` rad/s and `vec = ref = (0.5)`, the factor
applied by `scale_velocity_vector` is `s = -1.98`, which is not in `(0, 1]`, and the
component grows in magnitude from `0.5` to `0.99`. -/
theorem scale_factor_negative :
    scale_factor (SerialKinCtrl.new oneJointRobot 1) [1 / 2] = some (-99 / 50)
      ∧ ¬ (0 < (-99 / 50 : ℚ))
      ∧ (scale_velocity_vector (SerialKinCtrl.new oneJointRobot 1) [1 / 2] [1 / 2]).2.1
          = some [-99 / 100]
      ∧ ¬ |(-99 / 100 : ℚ)| ≤ |(1 / 2 : ℚ)| := by
  have h : scale_factor (SerialKinCtrl.new oneJointRobot 1) [1 / 2] = some (-99 / 50) := by
    norm_num [scale_factor, scale_velocity_loop, scale_velocity_step,
      SerialKinCtrl.new, oneJointRobot, List.range_succ, SerialLink.get_velocity_limits]
  refine ⟨h, ?_, ?_, ?_⟩
  · norm_num
  · simp only [scale_velocity_vector, h]; norm_num
  · norm_num [abs_of_neg, abs_of_pos]

/-- C3: one call of `scale_velocity_vector` on a feasible vector (scale factor `1`, vector
unchanged) turns the stored velocity limits `(1, 1)` of the two-joint robot into
`(-1, -1)`: they are no longer the non-negative bounds supplied by the robot model. -/
theorem scale_velocity_vector_negates_vLim :
    (SerialKinCtrl.new twoJointRobot 2).vLim = twoJointRobot.velocityLimits
      ∧ twoJointRobot.velocityLimits = [1, 1]
      ∧ scale_velocity_vector (SerialKinCtrl.new twoJointRobot 2) [-1 / 5, -3 / 10]
          [-1 / 5, -3 / 10]
        = (true, some [-1 / 5, -3 / 10],
            { SerialKinCtrl.new twoJointRobot 2 with vLim := [-1, -1] }) := by
  refine ⟨rfl, rfl, ?_⟩
  norm_num [scale_velocity_vector, scale_factor, scale_velocity_loop, scale_velocity_step,
    SerialKinCtrl.new, twoJointRobot, List.range_succ, SerialLink.get_velocity_limits]

end ScaleVelocity

section SetJointTarget

variable {K : Type} [LinearOrderedField K]

private theorem getD_set_zero (l : List K) (i j : ℕ) (x : K) (hi : i < l.length) :
    (l.set i x).getD j 0 = if j = i then x else l.getD j 0 := by
  simp only [List.getD_eq_getElem?_getD, List.getElem?_set]
  by_cases h : i = j
  · subst h; simp [hi]
  · have h2 : ¬ j = i := fun e => h e.symm
    simp [h, h2]

/-- Invariant of the loop of `set_joint_target` after `k` joints. -/
private theorem set_joint_target_loop (c : SerialKinCtrl K) (target : List K) (e0 : K)
    (he0 : 0 ≤ e0) : ∀ k, k ≤ target.length →
      ((List.range k).foldl (set_joint_target_step c) (target, e0)).1.length = target.length
      ∧ (∀ i, ((List.range k).foldl (set_joint_target_step c) (target, e0)).1.getD i 0
            = if i < k then clampedAt c target i else target.getD i 0)
      ∧ ((List.range k).foldl (set_joint_target_step c) (target, e0)).2
          = ((List.range k).map (durationAt c target)).foldl max e0
      ∧ e0 ≤ ((List.range k).foldl (set_joint_target_step c) (target, e0)).2 := by
  intro k
  induction k with
  | zero => intro _; simp
  | succ k ih =>
    intro hk
    obtain ⟨hlen, hget, hend, hle⟩ := ih (by omega)
    rw [List.range_succ, List.foldl_append, List.map_append, List.foldl_append]
    simp only [List.foldl_cons, List.foldl_nil, List.map_cons, List.map_nil]
    generalize hst : (List.range k).foldl (set_joint_target_step c) (target, e0) = st at *
    have hk' : k < st.1.length := by omega
    have hstk : st.1.getD k 0 = target.getD k 0 := by rw [hget k]; simp
    have hnew : ∀ i, (st.1.set k (clampedAt c target k)).getD i 0
        = if i < k + 1 then clampedAt c target i else target.getD i 0 := by
      intro i
      rw [getD_set_zero _ _ _ _ hk', hget i]
      by_cases h1 : i = k
      · subst h1; simp
      · by_cases h2 : i < k
        · have : i < k + 1 := by omega
          simp [h1, h2, this]
        · have : ¬ i < k + 1 := by omega
          simp [h1, h2, this]
    have hdq : (st.1.set k (clampedAt c target k)).getD k 0 = clampedAt c target k := by
      rw [hnew k]; simp
    have hstep : set_joint_target_step c st k
        = (st.1.set k (clampedAt c target k),
            if |clampedAt c target k - c.robot.get_joint_position k| ≠ 0
                ∧ durationAt c target k > st.2
              then durationAt c target k else st.2) := by
      have hc : clamp_target (c.pLim.getD k (0, 0)).1 (c.pLim.getD k (0, 0)).2
          (target.getD k 0) = clampedAt c target k := rfl
      simp only [set_joint_target_step, hstk, hc, hdq, durationAt]
      split_ifs <;> rfl
    have hst0 : 0 ≤ st.2 := le_trans he0 hle
    have hmax : (if |clampedAt c target k - c.robot.get_joint_position k| ≠ 0
                ∧ durationAt c target k > st.2
              then durationAt c target k else st.2) = max st.2 (durationAt c target k) := by
      split_ifs with h
      · exact (max_eq_right (le_of_lt h.2)).symm
      · rw [not_and_or] at h
        rcases h with h | h
        · have hz : durationAt c target k = 0 := by
            have : |clampedAt c target k - c.robot.get_joint_position k| = 0 := by
              simpa using h
            simp [durationAt, this]
          rw [hz]; exact (max_eq_left hst0).symm
        · exact (max_eq_left (not_lt.mp h)).symm
    rw [hstep, hmax]
    refine ⟨by simp [hlen], hnew, by rw [← hend], ?_⟩
    exact le_trans hle (le_max_left _ _)

private theorem le_foldl_max (l : List K) (e : K) :
    e ≤ l.foldl max e ∧ ∀ x ∈ l, x ≤ l.foldl max e := by
  induction l generalizing e with
  | nil => simp
  | cons a l ih =>
    simp only [List.foldl_cons, List.mem_cons, forall_eq_or_imp]
    refine ⟨le_trans (le_max_left _ _) (ih _).1, le_trans (le_max_right _ _) (ih _).1, ?_⟩
    exact (ih _).2

/-- What `set_joint_target` returns for a target of the right length, in terms of the
per-joint clamped value and duration. -/
private theorem set_joint_target_spec (c : SerialKinCtrl K) (target : List K)
    (hlen : target.length = c.n) :
    (set_joint_target c target).1 = true
      ∧ (∀ i, i < c.n → (set_joint_target c target).2.1.getD i 0 = clampedAt c target i)
      ∧ (set_joint_target c target).2.2.jointTrajectory
          = ⟨c.robot.get_joint_positions, (set_joint_target c target).2.1, 0,
              ((List.range c.n).map (durationAt c target)).foldl max 1⟩ := by
  obtain ⟨_, hget, hend, _⟩ :=
    set_joint_target_loop c target 1 zero_le_one c.n (le_of_eq hlen.symm)
  have hne : ¬ target.length ≠ c.n := fun h => h hlen
  simp only [set_joint_target, hne, if_false]
  refine ⟨trivial, ?_, ?_⟩
  · intro i hi
    rw [hget i, if_pos hi]
  · rw [hend]

/-- C4: for a target of length `n` and positive stored velocity limits, `set_joint_target`
returns `true` and stores the trajectory from the current joint positions to the clamped
target over `[0, endTime]`, where `endTime` is the maximum of `1` and the per-joint
durations `15*|t_i - q_i| / (8*vLim_i)` (`t` the clamped target); hence
`15*|t_i - q_i| / (8*endTime) <= vLim_i` for every joint. -/
theorem set_joint_target_end_time (c : SerialKinCtrl K) (target : List K)
    (hlen : target.length = c.n) (hv : ∀ i, i < c.n → 0 < c.vLim.getD i 0) :
    (set_joint_target c target).1 = true
      ∧ (set_joint_target c target).2.2.jointTrajectory
          = ⟨c.robot.get_joint_positions, (set_joint_target c target).2.1, 0,
              ((List.range c.n).map fun i =>
                15 * |(set_joint_target c target).2.1.getD i 0 - c.robot.get_joint_position i|
                  / (8 * c.vLim.getD i 0)).foldl max 1⟩
      ∧ ∀ i, i < c.n →
          15 * |(set_joint_target c target).2.1.getD i 0 - c.robot.get_joint_position i|
            / (8 * (set_joint_target c target).2.2.jointTrajectory.endTime)
          ≤ c.vLim.getD i 0 := by
  obtain ⟨htrue, hget, htraj⟩ := set_joint_target_spec c target hlen
  have hmap : ((List.range c.n).map fun i =>
      15 * |(set_joint_target c target).2.1.getD i 0 - c.robot.get_joint_position i|
        / (8 * c.vLim.getD i 0)) = (List.range c.n).map (durationAt c target) := by
    apply List.map_congr_left
    intro i hi
    rw [hget i (List.mem_range.mp hi)]
    rfl
  refine ⟨htrue, by rw [hmap]; exact htraj, ?_⟩
  intro i hi
  rw [htraj, hget i hi]
  have hE := le_foldl_max ((List.range c.n).map (durationAt c target)) (1 : K)
  have h1 : (1 : K) ≤ ((List.range c.n).map (durationAt c target)).foldl max 1 := hE.1
  have h2 : durationAt c target i ≤ ((List.range c.n).map (durationAt c target)).foldl max 1 :=
    hE.2 _ (List.mem_map.mpr ⟨i, List.mem_range.mpr hi, rfl⟩)
  have hvi := hv i hi
  have hEpos : (0 : K) < ((List.range c.n).map (durationAt c target)).foldl max 1 :=
    lt_of_lt_of_le zero_lt_one h1
  simp only [durationAt] at h2
  rw [div_le_iff₀ (by positivity)] at h2
  rw [div_le_iff₀ (by positivity)]
  linarith

/-- Witness of C4, the scenario of the specification: one joint, limits `[-1, 1]`, velocity
limit `1`, position `0`, target `0.9`: nothing is clamped and `endTime = 1.6875`. -/
theorem set_joint_target_end_time_witness :
    (set_joint_target (SerialKinCtrl.new oneJointRobot 1) [9 / 10]).1 = true
      ∧ (set_joint_target (SerialKinCtrl.new oneJointRobot 1) [9 / 10]).2.2.jointTrajectory
          = ⟨[0], [9 / 10], 0, 27 / 16⟩
      ∧ 15 * |(set_joint_target (SerialKinCtrl.new oneJointRobot 1) [9 / 10]).2.1.getD 0 0
              - (SerialKinCtrl.new oneJointRobot 1).robot.get_joint_position 0|
            / (8 * (set_joint_target (SerialKinCtrl.new oneJointRobot 1)
                [9 / 10]).2.2.jointTrajectory.endTime)
          ≤ (SerialKinCtrl.new oneJointRobot 1).vLim.getD 0 0 := by
  have hv : ∀ i, i < (SerialKinCtrl.new oneJointRobot 1).n →
      0 < (SerialKinCtrl.new oneJointRobot 1).vLim.getD i 0 := by
    intro i hi
    have : i = 0 := by
      have : i < 1 := hi
      omega
    subst this
    norm_num [SerialKinCtrl.new, oneJointRobot, SerialLink.get_velocity_limits]
  have h := set_joint_target_end_time (SerialKinCtrl.new oneJointRobot 1) [9 / 10] rfl hv
  refine ⟨h.1, ?_, h.2.2 0 (by decide)⟩
  norm_num [set_joint_target, set_joint_target_step, clamp_target, SerialKinCtrl.new,
    oneJointRobot, List.range_succ, SerialLink.get_velocity_limits,
    SerialLink.get_position_limits, SerialLink.get_number_of_joints,
    SerialLink.get_joint_position, SerialLink.get_joint_positions, abs_of_pos]

/-- C5 fails as stated: on a joint with limits `[0, 0.005]` (so `lo < hi`) the target `1`
is replaced by `0.005 - 0.01 = -0.005`, which lies below the lower limit. -/
theorem set_joint_target_leaves_narrow_range :
    (SerialKinCtrl.new narrowJointRobot 1).pLim = [((0 : ℚ), (1 / 200 : ℚ))]
      ∧ (set_joint_target (SerialKinCtrl.new narrowJointRobot 1) [1]).1 = true
      ∧ (set_joint_target (SerialKinCtrl.new narrowJointRobot 1) [1]).2.1 = [-1 / 200]
      ∧ ¬ ((0 : ℚ) ≤ -1 / 200) := by
  refine ⟨rfl, ?_, ?_, by norm_num⟩
  all_goals
    norm_num [set_joint_target, set_joint_target_step, clamp_target, SerialKinCtrl.new,
      narrowJointRobot, List.range_succ, SerialLink.get_velocity_limits,
      SerialLink.get_position_limits, SerialLink.get_number_of_joints,
      SerialLink.get_joint_position, SerialLink.get_joint_positions, abs_of_pos]

/-- C5, amended: when every joint range is at least as wide as the margin,
`lo + 0.01 <= hi`, every component of the target left by `set_joint_target` lies in
`[lo, hi]`, whatever value was requested. -/
theorem set_joint_target_within_limits (c : SerialKinCtrl K) (target : List K)
    (hlen : target.length = c.n)
    (hwide : ∀ i, i < c.n → (c.pLim.getD i (0, 0)).1 + 1 / 100 ≤ (c.pLim.getD i (0, 0)).2) :
    ∀ i, i < c.n →
      (c.pLim.getD i (0, 0)).1 ≤ (set_joint_target c target).2.1.getD i 0
        ∧ (set_joint_target c target).2.1.getD i 0 ≤ (c.pLim.getD i (0, 0)).2 := by
  intro i hi
  rw [(set_joint_target_spec c target hlen).2.1 i hi]
  have hw := hwide i hi
  simp only [clampedAt, clamp_target]
  split_ifs with h1 h2 h2 <;> constructor <;> linarith

/-- Witness of the amended C5 on the one-joint robot with limits `[-1, 1]` and the
requested target `5`. -/
theorem set_joint_target_within_limits_witness :
    ((SerialKinCtrl.new oneJointRobot 1).pLim.getD 0 (0, 0)).1
        ≤ (set_joint_target (SerialKinCtrl.new oneJointRobot 1) [5]).2.1.getD 0 0
      ∧ (set_joint_target (SerialKinCtrl.new oneJointRobot 1) [5]).2.1.getD 0 0
        ≤ ((SerialKinCtrl.new oneJointRobot 1).pLim.getD 0 (0, 0)).2 :=
  set_joint_target_within_limits (SerialKinCtrl.new oneJointRobot 1) [5] rfl (by
    intro i hi
    have : i = 0 := by
      have : i < 1 := hi
      omega
    subst this
    norm_num [SerialKinCtrl.new, oneJointRobot, SerialLink.get_position_limits]) 0 (by decide)

/-- C6 fails as stated: on a joint with limits `[0, 0.005]` the target `-1`, which is below
the lower limit `0`, is not replaced by `0 + 0.01` but by `0.005 - 0.01 = -0.005`. -/
theorem set_joint_target_below_narrow_range :
    (SerialKinCtrl.new narrowJointRobot 1).pLim = [((0 : ℚ), (1 / 200 : ℚ))]
      ∧ (set_joint_target (SerialKinCtrl.new narrowJointRobot 1) [-1]).2.1 = [-1 / 200]
      ∧ (set_joint_target (SerialKinCtrl.new narrowJointRobot 1)
          [-1]).2.2.jointTrajectory.endPoint = [-1 / 200]
      ∧ (-1 / 200 : ℚ) ≠ 0 + 1 / 100 := by
  refine ⟨rfl, ?_, ?_, by norm_num⟩
  all_goals
    norm_num [set_joint_target, set_joint_target_step, clamp_target, SerialKinCtrl.new,
      narrowJointRobot, List.range_succ, SerialLink.get_velocity_limits,
      SerialLink.get_position_limits, SerialLink.get_number_of_joints,
      SerialLink.get_joint_position, SerialLink.get_joint_positions, abs_of_pos]

/-- C6, amended: for a joint `i` with `lo < hi`, `set_joint_target` replaces a component
above `hi` by exactly `hi - 0.01`, replaces a component below `lo` by exactly `lo + 0.01`
provided `lo + 0.01 < hi`, and leaves a component strictly between `lo` and `hi` unchanged;
the resulting vector is the end point of the stored trajectory. -/
theorem set_joint_target_clamp (c : SerialKinCtrl K) (target : List K) (i : ℕ)
    (hlen : target.length = c.n) (hi : i < c.n)
    (hlim : (c.pLim.getD i (0, 0)).1 < (c.pLim.getD i (0, 0)).2) :
    ((c.pLim.getD i (0, 0)).2 < target.getD i 0 →
        (set_joint_target c target).2.1.getD i 0 = (c.pLim.getD i (0, 0)).2 - 1 / 100)
      ∧ (target.getD i 0 < (c.pLim.getD i (0, 0)).1 →
          (c.pLim.getD i (0, 0)).1 + 1 / 100 < (c.pLim.getD i (0, 0)).2 →
          (set_joint_target c target).2.1.getD i 0 = (c.pLim.getD i (0, 0)).1 + 1 / 100)
      ∧ ((c.pLim.getD i (0, 0)).1 < target.getD i 0 →
          target.getD i 0 < (c.pLim.getD i (0, 0)).2 →
          (set_joint_target c target).2.1.getD i 0 = target.getD i 0)
      ∧ (set_joint_target c target).2.2.jointTrajectory.endPoint
          = (set_joint_target c target).2.1 := by
  obtain ⟨_, hget, htraj⟩ := set_joint_target_spec c target hlen
  rw [hget i hi, htraj]
  simp only [clampedAt, clamp_target, ge_iff_le]
  refine ⟨?_, ?_, ?_, trivial⟩
  · intro h
    rw [if_neg (not_le.mpr (lt_trans hlim h)), if_pos (le_of_lt h)]
  · intro h h'
    rw [if_pos (le_of_lt h), if_neg (not_le.mpr h')]
  · intro h h'
    rw [if_neg (not_le.mpr h), if_neg (not_le.mpr h')]

/-- Witness of the amended C6 on the one-joint robot with limits `[-1, 1]` and target `5`,
which is clamped to `0.99`. -/
theorem set_joint_target_clamp_witness :
    (set_joint_target (SerialKinCtrl.new oneJointRobot 1) [5]).2.1.getD 0 0 = 99 / 100
      ∧ (set_joint_target (SerialKinCtrl.new oneJointRobot 1) [5]).2.2.jointTrajectory.endPoint
          = (set_joint_target (SerialKinCtrl.new oneJointRobot 1) [5]).2.1 := by
  have h := set_joint_target_clamp (SerialKinCtrl.new oneJointRobot 1) [5] 0 rfl
    (by decide) (by norm_num [SerialKinCtrl.new, oneJointRobot, SerialLink.get_position_limits])
  refine ⟨?_, h.2.2.2⟩
  rw [h.1 (by norm_num [SerialKinCtrl.new, oneJointRobot, SerialLink.get_position_limits])]
  norm_num [SerialKinCtrl.new, oneJointRobot, SerialLink.get_position_limits]

end SetJointTarget

section JointLimitWeighting

variable {K : Type} [LinearOrderedField K]

/-- Inside the limits the sign test `dpdq*qdot > 0` of `get_joint_limit_weighting` is the
test "above the midpoint with positive velocity, or below it with negative velocity". -/
private theorem dpdq_mul_pos_iff (lo hi q qdot : K) (hlo : lo < q) (hhi : q < hi) :
    0 < (hi - lo) * (hi - lo) * (2 * q - hi - lo)
          / (4 * (hi - q) * (hi - q) * (q - lo) * (q - lo)) * qdot
      ↔ ((lo + hi) / 2 < q ∧ 0 < qdot) ∨ (q < (lo + hi) / 2 ∧ qdot < 0) := by
  have hu : 0 < hi - q := sub_pos.mpr hhi
  have hl : 0 < q - lo := sub_pos.mpr hlo
  have hr : 0 < hi - lo := by linarith
  have hD : 0 < 4 * (hi - q) * (hi - q) * (q - lo) * (q - lo) := by positivity
  have hrr : 0 < (hi - lo) * (hi - lo) := mul_pos hr hr
  have e : (hi - lo) * (hi - lo) * (2 * q - hi - lo)
        / (4 * (hi - q) * (hi - q) * (q - lo) * (q - lo)) * qdot
      = (hi - lo) * (hi - lo) / (4 * (hi - q) * (hi - q) * (q - lo) * (q - lo))
        * ((2 * q - hi - lo) * qdot) := by ring
  rw [e, mul_pos_iff_of_pos_left (div_pos hrr hD), mul_pos_iff]
  constructor
  · rintro (⟨h1, h2⟩ | ⟨h1, h2⟩)
    · exact Or.inl ⟨by linarith, h2⟩
    · exact Or.inr ⟨by linarith, h2⟩
  · rintro (⟨h1, h2⟩ | ⟨h1, h2⟩)
    · exact Or.inl ⟨by linarith, h2⟩
    · exact Or.inr ⟨by linarith, h2⟩

/-- Inside the limits the penalty function is at least `1`. -/
private theorem one_le_penalty (lo hi q : K) (hlo : lo < q) (hhi : q < hi) :
    1 ≤ (hi - lo) * (hi - lo) / (4 * (hi - q) * (q - lo)) := by
  have hu : 0 < hi - q := sub_pos.mpr hhi
  have hl : 0 < q - lo := sub_pos.mpr hlo
  rw [one_le_div (by positivity)]
  nlinarith [sq_nonneg ((hi - q) - (q - lo))]

/-- C7: the matrix returned by `get_joint_limit_weighting` is diagonal, and for a joint `i`
strictly inside its limits `W(i,i) = 1/p` with
`p = (hi-lo)^2 / (4*(hi-q)*(q-lo))` when the joint is above the midpoint with positive
velocity or below it with negative velocity, and `W(i,i) = 1` otherwise. -/
theorem get_joint_limit_weighting_entry (c : SerialKinCtrl K) (i : Fin c.n)
    (hlo : (c.pLim.getD i (0, 0)).1 < c.robot.get_joint_position i)
    (hhi : c.robot.get_joint_position i < (c.pLim.getD i (0, 0)).2) :
    (∀ j k, j ≠ k → get_joint_limit_weighting c j k = 0)
      ∧ ((((c.pLim.getD i (0, 0)).1 + (c.pLim.getD i (0, 0)).2) / 2
              < c.robot.get_joint_position i ∧ 0 < c.robot.get_joint_velocity i)
          ∨ (c.robot.get_joint_position i
              < ((c.pLim.getD i (0, 0)).1 + (c.pLim.getD i (0, 0)).2) / 2
            ∧ c.robot.get_joint_velocity i < 0) →
          get_joint_limit_weighting c i i
            = 1 / (((c.pLim.getD i (0, 0)).2 - (c.pLim.getD i (0, 0)).1) ^ 2
                / (4 * ((c.pLim.getD i (0, 0)).2 - c.robot.get_joint_position i)
                  * (c.robot.get_joint_position i - (c.pLim.getD i (0, 0)).1))))
      ∧ (¬ ((((c.pLim.getD i (0, 0)).1 + (c.pLim.getD i (0, 0)).2) / 2
              < c.robot.get_joint_position i ∧ 0 < c.robot.get_joint_velocity i)
          ∨ (c.robot.get_joint_position i
              < ((c.pLim.getD i (0, 0)).1 + (c.pLim.getD i (0, 0)).2) / 2
            ∧ c.robot.get_joint_velocity i < 0)) →
          get_joint_limit_weighting c i i = 1) := by
  refine ⟨?_, ?_, ?_⟩
  · intro j k hjk
    exact Matrix.diagonal_apply_ne _ hjk
  · intro h
    have hpos := (dpdq_mul_pos_iff _ _ _ _ hlo hhi).mpr h
    have hp := one_le_penalty _ _ _ hlo hhi
    simp only [get_joint_limit_weighting, Matrix.diagonal_apply_eq, joint_limit_weight,
      gt_iff_lt]
    rw [if_pos hpos, if_neg (not_lt.mpr hp), pow_two]
  · intro h
    have hpos := (dpdq_mul_pos_iff _ _ _ _ hlo hhi).not.mpr h
    simp only [get_joint_limit_weighting, Matrix.diagonal_apply_eq, joint_limit_weight,
      gt_iff_lt]
    rw [if_neg hpos]

/-- Witness of C7: limits `[-1, 1]`, `q = 0.5`, velocity `1`: the joint moves toward its
upper limit, `p = 4/3` and `W(0,0) = 3/4`. -/
theorem get_joint_limit_weighting_entry_witness :
    get_joint_limit_weighting (SerialKinCtrl.new movingJointRobot 1) ⟨0, by decide⟩ ⟨0, by decide⟩
      = 3 / 4 := by
  have h := (get_joint_limit_weighting_entry (SerialKinCtrl.new movingJointRobot 1) ⟨0, by decide⟩
    (by norm_num [SerialKinCtrl.new, movingJointRobot, SerialLink.get_position_limits,
      SerialLink.get_joint_position])
    (by norm_num [SerialKinCtrl.new, movingJointRobot, SerialLink.get_position_limits,
      SerialLink.get_joint_position])).2.1
    (by norm_num [SerialKinCtrl.new, movingJointRobot, SerialLink.get_position_limits,
      SerialLink.get_joint_position, SerialLink.get_joint_velocity])
  rw [h]
  norm_num [SerialKinCtrl.new, movingJointRobot, SerialLink.get_position_limits,
    SerialLink.get_joint_position]

end JointLimitWeighting

section Inverse

variable {K : Type} [LinearOrderedField K]

private theorem sigma_square {n : ℕ} (d : JacobiSVD K n n) :
    d.sigma = Matrix.diagonal d.sq := by
  ext i j
  by_cases h : i = j
  · subst h
    simp [JacobiSVD.sigma, JacobiSVD.sq]
    rfl
  · have h' : ¬ ((i : ℕ) = (j : ℕ)) := fun e => h (Fin.ext e)
    simp [JacobiSVD.sigma, h, h']

private theorem get_inverse_square (svd : SVDSolver K) {n : ℕ} (A : Matrix (Fin n) (Fin n) K)
    (hs : ∀ j, 1 / 1000000 < (svd n n A).singularValues j) :
    get_inverse svd A
      = some ((svd n n A).matrixV * Matrix.diagonal (fun j => 1 / (svd n n A).sq j)
          * (svd n n A).matrixU.transpose) := by
  simp only [get_inverse, le_refl, dite_true, gt_iff_lt, hs, if_true]
  congr 2
  ext i j
  simp [Matrix.mul_diagonal, JacobiSVD.sq, div_eq_mul_inv]

/-- For a square matrix whose decomposition is exact and keeps every singular direction,
`get_inverse` returns a two-sided inverse. -/
private theorem get_inverse_square_inverse (svd : SVDSolver K) {n : ℕ}
    (A : Matrix (Fin n) (Fin n) K) (hex : (svd n n A).Exact A)
    (hs : ∀ j, 1 / 1000000 < (svd n n A).singularValues j) :
    ∃ B, get_inverse svd A = some B ∧ B * A = 1 ∧ A * B = 1 := by
  refine ⟨_, get_inverse_square svd A hs, ?_⟩
  obtain ⟨hU, hV, hA⟩ := hex
  have hpos : ∀ j, (svd n n A).sq j ≠ 0 := fun j =>
    ne_of_gt (lt_trans (by norm_num) (hs _))
  generalize svd n n A = d at hU hV hA hpos ⊢
  have hV' : d.matrixV * d.matrixV.transpose = 1 := (Matrix.mul_eq_one_comm).mp hV
  have hD : Matrix.diagonal (fun j => 1 / d.sq j) * Matrix.diagonal d.sq = 1 := by
    rw [Matrix.diagonal_mul_diagonal]
    have : (fun j => 1 / d.sq j * d.sq j) = fun _ => (1 : K) := by
      funext j
      field_simp [hpos j]
    rw [this, Matrix.diagonal_one]
  have hBA : d.matrixV * Matrix.diagonal (fun j => 1 / d.sq j) * d.matrixU.transpose * A
      = 1 := by
    rw [hA, sigma_square]
    calc d.matrixV * Matrix.diagonal (fun j => 1 / d.sq j) * d.matrixU.transpose
          * (d.matrixU * Matrix.diagonal d.sq * d.matrixV.transpose)
        = d.matrixV * (Matrix.diagonal (fun j => 1 / d.sq j)
            * (d.matrixU.transpose * d.matrixU) * Matrix.diagonal d.sq)
            * d.matrixV.transpose := by
          simp only [Matrix.mul_assoc]
      _ = 1 := by rw [hU, Matrix.mul_one, hD, Matrix.mul_one, hV']
  exact ⟨hBA, (Matrix.mul_eq_one_comm).mp hBA⟩

private theorem diagonalSVD_exact {m n : ℕ} (A : Matrix (Fin m) (Fin n) K)
    (h : ∀ (i : Fin m) (j : Fin n), (i : ℕ) ≠ (j : ℕ) → A i j = 0) :
    (diagonalSVD m n A).Exact A := by
  refine ⟨by simp [diagonalSVD], by simp [diagonalSVD], ?_⟩
  ext i j
  by_cases hij : (i : ℕ) = (j : ℕ)
  · simp [diagonalSVD, JacobiSVD.sigma, hij]
  · simp [diagonalSVD, JacobiSVD.sigma, hij, h i j hij]

/-- C9: for a square matrix `A` with an exact decomposition all of whose singular values
exceed `1e-6`, `get_inverse(A)` is the inverse of `A`:
`get_inverse(A) * A = A * get_inverse(A) = I`. -/
theorem get_inverse_is_inverse (svd : SVDSolver K) {n : ℕ} (A : Matrix (Fin n) (Fin n) K)
    (hex : (svd n n A).Exact A)
    (hs : ∀ j, 1 / 1000000 < (svd n n A).singularValues j) :
    ∃ B, get_inverse svd A = some B ∧ B * A = 1 ∧ A * B = 1 :=
  get_inverse_square_inverse svd A hex hs

/-- Witness of C9: `get_inverse` of the `2 x 2` identity matrix is the identity matrix. -/
theorem get_inverse_is_inverse_witness :
    get_inverse diagonalSVD (1 : Matrix (Fin 2) (Fin 2) ℚ) = some 1 := by
  obtain ⟨B, hB, hBA, _⟩ := get_inverse_is_inverse diagonalSVD (1 : Matrix (Fin 2) (Fin 2) ℚ)
    (diagonalSVD_exact _ (fun i j hij => Matrix.one_apply_ne (fun e => hij (congrArg _ e))))
    (by intro j; simp [diagonalSVD]; norm_num)
  rw [hB, ← hBA, Matrix.mul_one]

/-- C10: for a square or wide matrix (`m ≤ n`), `get_inverse(A)` is the sum over exactly the
indices `j` with `s_j > 1e-6` of `(1/s_j) * v_j * u_jᵀ`, with `u_j`, `v_j` the columns of
`U`, `V`; when no singular value exceeds `1e-6` the result is the zero matrix, and so
`get_inverse` of the zero matrix, for an exact decomposition, is the zero matrix. -/
theorem get_inverse_eq_sum (svd : SVDSolver K) {m n : ℕ} (A : Matrix (Fin m) (Fin n) K)
    (h : m ≤ n) :
    get_inverse svd A
        = some (∑ j ∈ Finset.univ.filter (fun j : Fin m =>
              1 / 1000000 < (svd m n A).singularValues (Fin.cast (min_eq_left h).symm j)),
            (1 / (svd m n A).singularValues (Fin.cast (min_eq_left h).symm j))
              • Matrix.vecMulVec (fun i => (svd m n A).matrixV i (Fin.castLE h j))
                  (fun k => (svd m n A).matrixU k j))
      ∧ ((∀ j, (svd m n A).singularValues j ≤ 1 / 1000000) → get_inverse svd A = some 0)
      ∧ (A = 0 → (svd m n A).Exact A → get_inverse svd A = some 0) := by
  have hzero : (∀ j, (svd m n A).singularValues j ≤ 1 / 1000000) →
      get_inverse svd A = some 0 := by
    intro hs
    simp only [get_inverse, h, dite_true, gt_iff_lt, not_lt.mpr (hs _), if_false]
    congr 1
    ext i k
    simp [Matrix.mul_apply]
  refine ⟨?_, hzero, ?_⟩
  · simp only [get_inverse, h, dite_true, gt_iff_lt]
    congr 1
    ext i k
    simp only [Matrix.mul_apply, Matrix.of_apply, Matrix.transpose_apply, Matrix.sum_apply,
      Matrix.smul_apply, Matrix.vecMulVec_apply, smul_eq_mul, Finset.sum_filter]
    apply Finset.sum_congr rfl
    intro j _
    split_ifs
    · ring
    · ring
  · intro hA hex
    apply hzero
    obtain ⟨hU, hV, hdec⟩ := hex
    have hU' : (svd m n A).matrixU * (svd m n A).matrixU.transpose = 1 :=
      (Matrix.mul_eq_one_comm).mp hU
    have hsig : (svd m n A).sigma = 0 := by
      have e : (svd m n A).sigma
          = (svd m n A).matrixU.transpose
            * ((svd m n A).matrixU * (svd m n A).sigma * (svd m n A).matrixV.transpose)
            * (svd m n A).matrixV := by
        rw [Matrix.mul_assoc, Matrix.mul_assoc, hV, Matrix.mul_one, ← Matrix.mul_assoc, hU,
          Matrix.one_mul]
      rw [e, ← hdec, hA]
      simp
    intro j
    have hj := congrFun (congrFun hsig ⟨j, lt_of_lt_of_le j.isLt (min_le_left m n)⟩)
      ⟨j, lt_of_lt_of_le j.isLt (min_le_right m n)⟩
    simp only [JacobiSVD.sigma, Matrix.of_apply, dite_true, Matrix.zero_apply] at hj
    have hj' : (svd m n A).singularValues j = 0 := hj
    rw [hj']
    norm_num

/-- Witness of C10: for `diag(2, 0.0000001)` only the first singular direction is inverted;
the second one contributes exactly zero. -/
theorem get_inverse_eq_sum_witness :
    get_inverse diagonalSVD nearSingularMatrix
      = some (Matrix.diagonal fun j : Fin 2 => if (j : ℕ) = 0 then (1 / 2 : ℚ) else 0) := by
  rw [(get_inverse_eq_sum diagonalSVD nearSingularMatrix (le_refl 2)).1]
  congr 1
  ext i k
  fin_cases i <;> fin_cases k <;>
    norm_num [Finset.sum_filter, Fin.sum_univ_two, Matrix.sum_apply, Matrix.vecMulVec_apply,
      diagonalSVD, nearSingularMatrix, Matrix.one_apply]

private theorem get_inverse_weighted_square (svd : SVDSolver K) {m n : ℕ}
    (A : Matrix (Fin m) (Fin n) K) (W : Matrix (Fin n) (Fin n) K) :
    get_inverse_weighted svd A W
      = (get_inverse svd W).bind fun invW =>
          (get_inverse svd (A * (invW * A.transpose))).map fun inner =>
            invW * A.transpose * inner := by
  simp only [get_inverse_weighted, ne_eq, not_true_eq_false, dite_false]
  rfl

/-- C8 fails as stated: for the identity weighting `W = (1)` and the full-rank matrix
`A = (0.0005)`, with exact decompositions, the singular value `2.5e-7` of `A*W⁻¹*Aᵀ` is
dropped, `get_inverse(A, W)` is the zero matrix, and `A * get_inverse(A, W) * A = 0` differs
from `A` by `5e-4 > 1e-4`. -/
theorem get_inverse_weighted_drops_small_matrix :
    (diagonalSVD 1 1 (1 : Matrix (Fin 1) (Fin 1) ℚ)).Exact 1
      ∧ get_inverse diagonalSVD (1 : Matrix (Fin 1) (Fin 1) ℚ) = some 1
      ∧ (diagonalSVD 1 1 (smallMatrix * (1 * smallMatrix.transpose))).Exact
          (smallMatrix * (1 * smallMatrix.transpose))
      ∧ smallMatrix.det ≠ 0
      ∧ get_inverse_weighted diagonalSVD smallMatrix (1 : Matrix (Fin 1) (Fin 1) ℚ) = some 0
      ∧ ¬ |(smallMatrix * (0 : Matrix (Fin 1) (Fin 1) ℚ) * smallMatrix - smallMatrix) 0 0|
          ≤ 1 / 10000 := by
  have h1 : get_inverse diagonalSVD (1 : Matrix (Fin 1) (Fin 1) ℚ) = some 1 := by
    simp only [get_inverse, le_refl, dite_true]
    congr 1
    ext i k
    fin_cases i; fin_cases k
    norm_num [diagonalSVD, Matrix.mul_apply]
  have h2 : get_inverse diagonalSVD (smallMatrix * (1 * smallMatrix.transpose)) = some 0 := by
    simp only [get_inverse, le_refl, dite_true]
    congr 1
    ext i k
    fin_cases i; fin_cases k
    norm_num [diagonalSVD, Matrix.mul_apply, smallMatrix]
  refine ⟨diagonalSVD_exact _ ?_, h1, diagonalSVD_exact _ ?_, ?_, ?_, ?_⟩
  · intro i j hij
    exact Matrix.one_apply_ne (fun e => hij (congrArg _ e))
  · intro i j hij
    exact absurd (by rw [Subsingleton.elim i 0, Subsingleton.elim j 0]) hij
  · norm_num [smallMatrix, Matrix.det_unique]
  · rw [get_inverse_weighted_square, h1, Option.some_bind, h2]
    simp
  · norm_num [smallMatrix, Matrix.mul_apply, abs_of_pos]

/-- For a square matrix with an exact decomposition, `A * get_inverse(A)` is the projector
`U * diag(kept) * Uᵀ` onto the singular directions that are kept. -/
private theorem mul_get_inverse_square (svd : SVDSolver K) {n : ℕ}
    (A : Matrix (Fin n) (Fin n) K) (hex : (svd n n A).Exact A) :
    ∃ B, get_inverse svd A = some B
      ∧ A * B = (svd n n A).matrixU
          * Matrix.diagonal (fun j => if 1 / 1000000 < (svd n n A).sq j then (1 : K) else 0)
          * (svd n n A).matrixU.transpose := by
  have hB : get_inverse svd A
      = some ((svd n n A).matrixV
          * Matrix.diagonal (fun j => if 1 / 1000000 < (svd n n A).sq j
              then 1 / (svd n n A).sq j else 0)
          * (svd n n A).matrixU.transpose) := by
    simp only [get_inverse, le_refl, dite_true, gt_iff_lt]
    congr 2
    ext i j
    have hc : Fin.castLE (le_refl n) j = j := Fin.ext rfl
    simp only [Matrix.mul_diagonal, Matrix.of_apply, JacobiSVD.sq, hc]
    split_ifs
    · simp [div_eq_mul_inv]
    · simp
  refine ⟨_, hB, ?_⟩
  obtain ⟨_, hV, hA⟩ := hex
  generalize svd n n A = d at hV hA ⊢
  have hD : Matrix.diagonal d.sq
        * Matrix.diagonal (fun j => if 1 / 1000000 < d.sq j then 1 / d.sq j else 0)
      = Matrix.diagonal (fun j => if 1 / 1000000 < d.sq j then (1 : K) else 0) := by
    rw [Matrix.diagonal_mul_diagonal]
    have e : (fun j => d.sq j * if 1 / 1000000 < d.sq j then 1 / d.sq j else 0)
        = fun j => if 1 / 1000000 < d.sq j then (1 : K) else 0 := by
      funext j
      split_ifs with h
      · have : d.sq j ≠ 0 := ne_of_gt (lt_trans (by norm_num) h)
        field_simp
      · simp
    rw [e]
  rw [hA, sigma_square]
  calc d.matrixU * Matrix.diagonal d.sq * d.matrixV.transpose
        * (d.matrixV
          * Matrix.diagonal (fun j => if 1 / 1000000 < d.sq j then 1 / d.sq j else 0)
          * d.matrixU.transpose)
      = d.matrixU * (Matrix.diagonal d.sq * (d.matrixV.transpose * d.matrixV)
          * Matrix.diagonal (fun j => if 1 / 1000000 < d.sq j then 1 / d.sq j else 0))
          * d.matrixU.transpose := by
        simp only [Matrix.mul_assoc]
    _ = _ := by rw [hV, Matrix.mul_one, hD]

/-- C8, amended: for a square weighting matrix `W` and a matrix `A` whose column count equals
`W`'s row count, let `M = A * get_inverse(W) * Aᵀ` have the exact decomposition
`U * diag(s) * Vᵀ`. If every singular direction that `get_inverse` drops (`s_j <= 1e-6`) is
orthogonal to the columns of `A` (row `j` of `Uᵀ * A` is zero), in particular if every
singular value of `M` exceeds `1e-6`, then `A * get_inverse(A, W) * A = A`, hence to within
`1e-4` in every entry. -/
theorem get_inverse_weighted_pseudoinverse (svd : SVDSolver K) {m n : ℕ}
    (A : Matrix (Fin m) (Fin n) K) (W : Matrix (Fin n) (Fin n) K)
    (invW : Matrix (Fin n) (Fin n) K) (hW : get_inverse svd W = some invW)
    (hex : (svd m m (A * (invW * A.transpose))).Exact (A * (invW * A.transpose)))
    (hdrop : ∀ j, (svd m m (A * (invW * A.transpose))).sq j ≤ 1 / 1000000 →
      ∀ k, ((svd m m (A * (invW * A.transpose))).matrixU.transpose * A) j k = 0) :
    ∃ R, get_inverse_weighted svd A W = some R ∧ A * R * A = A
      ∧ ∀ i j, |(A * R * A - A) i j| ≤ 1 / 10000 := by
  obtain ⟨B, hB, hMB⟩ := mul_get_inverse_square svd _ hex
  have hU : (svd m m (A * (invW * A.transpose))).matrixU
      * (svd m m (A * (invW * A.transpose))).matrixU.transpose = 1 :=
    (Matrix.mul_eq_one_comm).mp hex.1
  have hP : Matrix.diagonal (fun j =>
        if 1 / 1000000 < (svd m m (A * (invW * A.transpose))).sq j then (1 : K) else 0)
        * ((svd m m (A * (invW * A.transpose))).matrixU.transpose * A)
      = (svd m m (A * (invW * A.transpose))).matrixU.transpose * A := by
    ext j k
    rw [Matrix.diagonal_mul]
    split_ifs with h
    · rw [one_mul]
    · rw [hdrop j (not_lt.mp h) k, mul_zero]
  have hR : A * (invW * A.transpose * B) * A = A := by
    calc A * (invW * A.transpose * B) * A
        = A * (invW * A.transpose) * B * A := by simp only [Matrix.mul_assoc]
      _ = (svd m m (A * (invW * A.transpose))).matrixU
            * (Matrix.diagonal (fun j =>
                if 1 / 1000000 < (svd m m (A * (invW * A.transpose))).sq j then (1 : K) else 0)
              * ((svd m m (A * (invW * A.transpose))).matrixU.transpose * A)) := by
          rw [hMB]; simp only [Matrix.mul_assoc]
      _ = A := by rw [hP, ← Matrix.mul_assoc, hU, Matrix.one_mul]
  refine ⟨invW * A.transpose * B, ?_, hR, ?_⟩
  · rw [get_inverse_weighted_square, hW, Option.some_bind, hB, Option.map_some']
  · intro i j
    rw [hR]
    norm_num

/-- Witness of the amended C8: the weighting `W = (1)` and the tall matrix `A` with column
`(1, 0)`: `A * Aᵀ = diag(1, 0)`, the dropped second direction is orthogonal to `A`, and
`A * get_inverse(A, W) * A = A`. -/
theorem get_inverse_weighted_pseudoinverse_witness :
    ∃ R, get_inverse_weighted diagonalSVD tallMatrix (1 : Matrix (Fin 1) (Fin 1) ℚ) = some R
      ∧ tallMatrix * R * tallMatrix = tallMatrix
      ∧ ∀ i j, |(tallMatrix * R * tallMatrix - tallMatrix) i j| ≤ 1 / 10000 := by
  have h1 : get_inverse diagonalSVD (1 : Matrix (Fin 1) (Fin 1) ℚ) = some 1 := by
    simp only [get_inverse, le_refl, dite_true]
    congr 1
    ext i k
    fin_cases i; fin_cases k
    norm_num [diagonalSVD, Matrix.mul_apply]
  refine get_inverse_weighted_pseudoinverse diagonalSVD tallMatrix 1 1 h1
    (diagonalSVD_exact _ ?_) ?_
  · intro i j hij
    fin_cases i <;> fin_cases j <;>
      simp_all [tallMatrix, Matrix.mul_apply]
  · intro j hj k
    fin_cases k
    fin_cases j
    · exfalso
      revert hj
      norm_num [JacobiSVD.sq, diagonalSVD, tallMatrix, Matrix.mul_apply]
    · norm_num [diagonalSVD, tallMatrix, Matrix.mul_apply, Fin.sum_univ_two, Matrix.one_apply]

end Inverse

section SetTargetPose

variable {K : Type} [LinearOrderedField K]

/-- What `set_target_pose` does for a positive time. -/
private theorem set_target_pose_pos (lib : Library K) (c : SerialKinCtrl K)
    (target : Isometry3 K) (time : K) (htime : 0 < time) :
    set_target_pose lib c target time
      = (true,
          set_target_pose_time lib.M_PI time (pose_distance lib c target)
            (pose_angle lib c target),
          { c with cartesianTrajectory := ⟨c.robot.get_endpoint_pose, target, 0,
              set_target_pose_time lib.M_PI time (pose_distance lib c target)
                (pose_angle lib c target)⟩ }) := by
  simp only [set_target_pose, not_le.mpr htime, if_false]
  rfl

/-- The check of the linear speed on lines 138-144. -/
private theorem linear_speed_check (time d : K) (htime : 0 < time) :
    0 < (if 1 < d / time then d / 1 else time)
      ∧ time ≤ (if 1 < d / time then d / 1 else time)
      ∧ d ≤ (if 1 < d / time then d / 1 else time)
      ∧ (d / time ≤ 1 → (if 1 < d / time then d / 1 else time) = time)
      ∧ (1 < d / time → (if 1 < d / time then d / 1 else time) = d ∧ time < d) := by
  by_cases h1 : 1 < d / time
  · have hd : time < d := by rwa [one_lt_div htime] at h1
    rw [if_pos h1, div_one]
    exact ⟨lt_trans htime hd, le_of_lt hd, le_refl _, fun h => absurd h1 (not_lt.mpr h),
      fun _ => ⟨rfl, hd⟩⟩
  · have hd : d ≤ time := by
      have := not_lt.mp h1
      rwa [div_le_one htime] at this
    rw [if_neg h1]
    exact ⟨htime, le_refl _, hd, fun _ => rfl, fun h => absurd h h1⟩

/-- The check of the angular speed on lines 147-155. -/
private theorem angular_speed_check (t b : K) (ht : 0 < t) :
    t ≤ (if 21 / 2 < b / t then b / (21 / 2) else t)
      ∧ b / (if 21 / 2 < b / t then b / (21 / 2) else t) ≤ 21 / 2
      ∧ (b / t ≤ 21 / 2 → (if 21 / 2 < b / t then b / (21 / 2) else t) = t) := by
  by_cases h2 : 21 / 2 < b / t
  · have hb : 21 / 2 * t < b := by rwa [lt_div_iff₀ ht] at h2
    have hbpos : 0 < b := by nlinarith
    rw [if_pos h2]
    refine ⟨?_, ?_, fun h => absurd h2 (not_lt.mpr h)⟩
    · rw [le_div_iff₀ (by norm_num)]; linarith
    · rw [div_div_eq_mul_div, mul_comm, mul_div_assoc, div_self (ne_of_gt hbpos), mul_one]
  · rw [if_neg h2]
    exact ⟨le_refl _, not_lt.mp h2, fun _ => rfl⟩

/-- The time chosen on lines 137-155 for a positive requested time. -/
private theorem set_target_pose_time_spec (pi time d a : K) (htime : 0 < time) :
    0 < set_target_pose_time pi time d a
      ∧ time ≤ set_target_pose_time pi time d a
      ∧ d ≤ set_target_pose_time pi time d a
      ∧ shortest_angle pi a / set_target_pose_time pi time d a ≤ 21 / 2
      ∧ (d / time ≤ 1 → shortest_angle pi a / time ≤ 21 / 2 →
          set_target_pose_time pi time d a = time)
      ∧ (1 < d / time → time < set_target_pose_time pi time d a)
      ∧ (1 < d / time → shortest_angle pi a / d ≤ 21 / 2 →
          set_target_pose_time pi time d a = d) := by
  obtain ⟨hA0, hA1, hA2, hA3, hA4⟩ := linear_speed_check time d htime
  obtain ⟨hB1, hB2, hB3⟩ := angular_speed_check (if 1 < d / time then d / 1 else time)
    (shortest_angle pi a) hA0
  have e : set_target_pose_time pi time d a
      = (if 21 / 2 < shortest_angle pi a / (if 1 < d / time then d / 1 else time)
          then shortest_angle pi a / (21 / 2)
          else (if 1 < d / time then d / 1 else time)) := rfl
  rw [e]
  refine ⟨lt_of_lt_of_le hA0 hB1, le_trans hA1 hB1, le_trans hA2 hB1, hB2, ?_, ?_, ?_⟩
  · intro h1 h2
    rw [hA3 h1] at hB3 ⊢
    exact hB3 h2
  · intro h1
    exact lt_of_lt_of_le (by rw [(hA4 h1).1]; exact (hA4 h1).2) hB1
  · intro h1 h2
    rw [(hA4 h1).1] at hB3 ⊢
    exact hB3 h2

/-- C11: for a requested time `> 0`, `set_target_pose` returns `true` and the time `T`
that it writes back and stores as the end of the trajectory respects both speed limits:
`d / T <= 1.0` and `a' / T <= 10.5`, where `d` is the translational distance and `a'` the
rotation angle `a` mapped to the shortest path (`a` if `a <= pi`, `2*pi - a` otherwise);
for `a` in `[0, 2*pi]`, `a'` lies in `[0, pi]`. -/
theorem set_target_pose_speed_limits (lib : Library K) (c : SerialKinCtrl K)
    (target : Isometry3 K) (time : K) (htime : 0 < time) :
    (set_target_pose lib c target time).1 = true
      ∧ (set_target_pose lib c target time).2.2.cartesianTrajectory
          = ⟨c.robot.get_endpoint_pose, target, 0, (set_target_pose lib c target time).2.1⟩
      ∧ pose_distance lib c target / (set_target_pose lib c target time).2.1 ≤ 1
      ∧ shortest_angle lib.M_PI (pose_angle lib c target)
          / (set_target_pose lib c target time).2.1 ≤ 21 / 2
      ∧ (0 ≤ pose_angle lib c target → pose_angle lib c target ≤ 2 * lib.M_PI →
          0 ≤ shortest_angle lib.M_PI (pose_angle lib c target)
            ∧ shortest_angle lib.M_PI (pose_angle lib c target) ≤ lib.M_PI) := by
  obtain ⟨hpos, _, hd, ha, _⟩ := set_target_pose_time_spec lib.M_PI time
    (pose_distance lib c target) (pose_angle lib c target) htime
  rw [set_target_pose_pos lib c target time htime]
  refine ⟨rfl, rfl, ?_, ha, ?_⟩
  · exact (div_le_one hpos).mpr hd
  · intro h0 h2
    unfold shortest_angle
    split_ifs with h
    · constructor <;> linarith
    · exact ⟨h0, not_lt.mp h⟩

/-- Witness of C11: the one-joint robot at the identity pose, a target `2` away with the
same orientation and requested time `1`: the chosen time is `2`, so the linear speed is
`1` and the angular speed `0`. -/
theorem set_target_pose_speed_limits_witness :
    (set_target_pose exampleLibrary (SerialKinCtrl.new oneJointRobot 1) (translationPose 2) 1).2.1
        = 2
      ∧ pose_distance exampleLibrary (SerialKinCtrl.new oneJointRobot 1) (translationPose 2)
          / (set_target_pose exampleLibrary (SerialKinCtrl.new oneJointRobot 1)
              (translationPose 2) 1).2.1 ≤ 1
      ∧ shortest_angle exampleLibrary.M_PI
            (pose_angle exampleLibrary (SerialKinCtrl.new oneJointRobot 1) (translationPose 2))
          / (set_target_pose exampleLibrary (SerialKinCtrl.new oneJointRobot 1)
              (translationPose 2) 1).2.1 ≤ 21 / 2 := by
  have h := set_target_pose_speed_limits exampleLibrary (SerialKinCtrl.new oneJointRobot 1)
    (translationPose 2) 1 one_pos
  refine ⟨?_, h.2.2.1, h.2.2.2.1⟩
  norm_num [set_target_pose, set_target_pose_time, exampleLibrary, translationPose,
    SerialKinCtrl.new, oneJointRobot, SerialLink.get_endpoint_pose, Isometry3.identity,
    abs_of_pos]

/-- C12: for a requested time `> 0` the time that `set_target_pose` writes back, which is
the end time of the stored trajectory, is never smaller than the requested time, and it is
the requested time whenever the required linear speed `d / time` is at most `1.0` and the
required angular speed `a' / time` is at most `10.5`. -/
theorem set_target_pose_time_not_smaller (lib : Library K) (c : SerialKinCtrl K)
    (target : Isometry3 K) (time : K) (htime : 0 < time) :
    time ≤ (set_target_pose lib c target time).2.1
      ∧ (set_target_pose lib c target time).2.2.cartesianTrajectory.endTime
          = (set_target_pose lib c target time).2.1
      ∧ (pose_distance lib c target / time ≤ 1 →
          shortest_angle lib.M_PI (pose_angle lib c target) / time ≤ 21 / 2 →
          (set_target_pose lib c target time).2.1 = time) := by
  obtain ⟨_, ht, _, _, heq, _⟩ := set_target_pose_time_spec lib.M_PI time
    (pose_distance lib c target) (pose_angle lib c target) htime
  rw [set_target_pose_pos lib c target time htime]
  exact ⟨ht, rfl, heq⟩

/-- Witness of C12: a target `0.5` away with the same orientation and requested time `1`:
both required speeds are within the limits and the time stays `1`. -/
theorem set_target_pose_time_not_smaller_witness :
    (set_target_pose exampleLibrary (SerialKinCtrl.new oneJointRobot 1)
        (translationPose (1 / 2)) 1).2.1 = 1 :=
  (set_target_pose_time_not_smaller exampleLibrary (SerialKinCtrl.new oneJointRobot 1)
    (translationPose (1 / 2)) 1 one_pos).2.2
    (by norm_num [pose_distance, exampleLibrary, translationPose, SerialKinCtrl.new,
      oneJointRobot, SerialLink.get_endpoint_pose, Isometry3.identity, abs_of_pos])
    (by norm_num [shortest_angle, pose_angle, exampleLibrary])

/-- C13 fails as stated: with the end-effector at the identity pose, a target `2` away with
the same orientation and requested time `1`, the required linear speed is `2 > 1.0` and the
chosen time is `2`, which is the naive value `distance/1.0`, not more. -/
theorem set_target_pose_time_eq_naive :
    pose_distance exampleLibrary (SerialKinCtrl.new oneJointRobot 1) (translationPose 2) = 2
      ∧ (1 : ℚ) < pose_distance exampleLibrary (SerialKinCtrl.new oneJointRobot 1)
          (translationPose 2) / 1
      ∧ (set_target_pose exampleLibrary (SerialKinCtrl.new oneJointRobot 1)
          (translationPose 2) 1).2.1 = 2
      ∧ ¬ (pose_distance exampleLibrary (SerialKinCtrl.new oneJointRobot 1) (translationPose 2) / 1
          < (set_target_pose exampleLibrary (SerialKinCtrl.new oneJointRobot 1)
              (translationPose 2) 1).2.1) := by
  have hd : pose_distance exampleLibrary (SerialKinCtrl.new oneJointRobot 1) (translationPose 2)
      = 2 := by
    norm_num [pose_distance, exampleLibrary, translationPose, SerialKinCtrl.new,
      oneJointRobot, SerialLink.get_endpoint_pose, Isometry3.identity, abs_of_pos]
  have hT : (set_target_pose exampleLibrary (SerialKinCtrl.new oneJointRobot 1)
      (translationPose 2) 1).2.1 = 2 := by
    norm_num [set_target_pose, set_target_pose_time, exampleLibrary, translationPose,
      SerialKinCtrl.new, oneJointRobot, SerialLink.get_endpoint_pose, Isometry3.identity,
      abs_of_pos]
  rw [hd, hT]
  norm_num

/-- C13, amended: for a requested time `> 0` whose required linear speed `distance/time`
is greater than `1.0`, the chosen trajectory time is strictly greater than the requested
time and at least the naive value `distance/1.0`; it is exactly `distance/1.0` when the
angular speed at that duration is at most `10.5`. -/
theorem set_target_pose_time_enlarged (lib : Library K) (c : SerialKinCtrl K)
    (target : Isometry3 K) (time : K) (htime : 0 < time)
    (hspeed : 1 < pose_distance lib c target / time) :
    time < (set_target_pose lib c target time).2.1
      ∧ pose_distance lib c target / 1 ≤ (set_target_pose lib c target time).2.1
      ∧ (shortest_angle lib.M_PI (pose_angle lib c target) / (pose_distance lib c target / 1)
            ≤ 21 / 2 →
          (set_target_pose lib c target time).2.1 = pose_distance lib c target / 1) := by
  obtain ⟨_, _, hd, _, _, hlt, heq⟩ := set_target_pose_time_spec lib.M_PI time
    (pose_distance lib c target) (pose_angle lib c target) htime
  rw [set_target_pose_pos lib c target time htime, div_one]
  exact ⟨hlt hspeed, hd, heq hspeed⟩

/-- Witness of the amended C13: a target `3` away with the same orientation and requested
time `1`: the chosen time is `3`. -/
theorem set_target_pose_time_enlarged_witness :
    (1 : ℚ) < (set_target_pose exampleLibrary (SerialKinCtrl.new oneJointRobot 1)
        (translationPose 3) 1).2.1
      ∧ (set_target_pose exampleLibrary (SerialKinCtrl.new oneJointRobot 1)
          (translationPose 3) 1).2.1
        = pose_distance exampleLibrary (SerialKinCtrl.new oneJointRobot 1) (translationPose 3)
          / 1 := by
  have hd : pose_distance exampleLibrary (SerialKinCtrl.new oneJointRobot 1) (translationPose 3)
      = 3 := by
    norm_num [pose_distance, exampleLibrary, translationPose, SerialKinCtrl.new,
      oneJointRobot, SerialLink.get_endpoint_pose, Isometry3.identity, abs_of_pos]
  have h := set_target_pose_time_enlarged exampleLibrary (SerialKinCtrl.new oneJointRobot 1)
    (translationPose 3) 1 one_pos (by rw [hd]; norm_num)
  exact ⟨h.1, h.2.2 (by rw [hd]; norm_num [shortest_angle, pose_angle, exampleLibrary])⟩

end SetTargetPose

section ScaleVelocityChecks

variable {K : Type} [LinearOrderedField K]

/-- C17: on the two-joint robot with limits `1`, `scale_velocity_vector(v, v)` with
`v = (0.2, 0.3)`, both components within their limits, applies the factor `s = -4.95`
instead of `1` and returns `v = (-0.99, -1.485)` instead of leaving it unchanged. -/
theorem scale_factor_not_one_within_limits :
    (SerialKinCtrl.new twoJointRobot 2).vLim = [1, 1]
      ∧ scale_factor (SerialKinCtrl.new twoJointRobot 2) [1 / 5, 3 / 10] = some (-99 / 20)
      ∧ (scale_velocity_vector (SerialKinCtrl.new twoJointRobot 2) [1 / 5, 3 / 10]
          [1 / 5, 3 / 10]).2.1 = some [-99 / 100, -297 / 200] := by
  have h : scale_factor (SerialKinCtrl.new twoJointRobot 2) [1 / 5, 3 / 10]
      = some (-99 / 20) := by
    norm_num [scale_factor, scale_velocity_loop, scale_velocity_step,
      SerialKinCtrl.new, twoJointRobot, List.range_succ, SerialLink.get_velocity_limits]
  refine ⟨rfl, h, ?_⟩
  simp only [scale_velocity_vector, h]
  norm_num

/-- C18: for `vec` and `ref` of different lengths `scale_velocity_vector` returns `false`
and leaves `vec` and the controller (the velocity limits included) unchanged; for equal
lengths it returns `true`. -/
theorem scale_velocity_vector_length_check (c : SerialKinCtrl K) (vec ref : List K) :
    (vec.length ≠ ref.length → scale_velocity_vector c vec ref = (false, some vec, c))
      ∧ (vec.length = ref.length → (scale_velocity_vector c vec ref).1 = true) := by
  constructor
  · intro h
    simp only [scale_velocity_vector, if_pos h]
  · intro h
    have h' : ¬ vec.length ≠ ref.length := fun e => e h
    simp only [scale_velocity_vector, if_neg h']

/-- Witness of C18: a vector of length `1` with a reference of length `2`. -/
theorem scale_velocity_vector_length_check_witness :
    scale_velocity_vector (SerialKinCtrl.new oneJointRobot 1) [1] [1, 2]
      = (false, some [1], SerialKinCtrl.new oneJointRobot 1) :=
  (scale_velocity_vector_length_check (SerialKinCtrl.new oneJointRobot 1) [1] [1, 2]).1
    (by decide)

end ScaleVelocityChecks

section InverseChecks

variable {K : Type} [LinearOrderedField K]

/-- For a square matrix `get_inverse` has a result. -/
private theorem get_inverse_square_some (svd : SVDSolver K) {n : ℕ}
    (A : Matrix (Fin n) (Fin n) K) : ∃ B, get_inverse svd A = some B := by
  simp only [get_inverse, le_refl, dite_true]
  exact ⟨_, rfl⟩

/-- C19: `get_inverse(A, W)` returns the `n x m` zero matrix when `W` is not square, and
when `W` is square with a row count different from the column count `n` of `A`; when `W` is
square with `n` rows it returns
`get_inverse(W)*Aᵀ * get_inverse(A*get_inverse(W)*Aᵀ)`, both inner results being there. -/
theorem get_inverse_weighted_shape_check (svd : SVDSolver K) {m n p q : ℕ}
    (A : Matrix (Fin m) (Fin n) K) (W : Matrix (Fin p) (Fin q) K) :
    (q ≠ p → get_inverse_weighted svd A W = some 0)
      ∧ (q = p → n ≠ p → get_inverse_weighted svd A W = some 0)
      ∧ ∀ W' : Matrix (Fin n) (Fin n) K, ∃ invW inner,
          get_inverse svd W' = some invW
            ∧ get_inverse svd (A * (invW * A.transpose)) = some inner
            ∧ get_inverse_weighted svd A W' = some (invW * A.transpose * inner) := by
  refine ⟨?_, ?_, ?_⟩
  · intro h
    simp only [get_inverse_weighted, h, ne_eq, not_false_eq_true, dite_true]
  · intro h1 h2
    have h1' : ¬ q ≠ p := fun e => e h1
    simp only [get_inverse_weighted, h1', h2, ne_eq, not_false_eq_true, dite_true,
      dite_false]
  · intro W'
    obtain ⟨invW, hW⟩ := get_inverse_square_some svd W'
    obtain ⟨inner, hM⟩ := get_inverse_square_some svd (A * (invW * A.transpose))
    refine ⟨invW, inner, hW, hM, ?_⟩
    rw [get_inverse_weighted_square, hW, Option.some_bind, hM, Option.map_some']

/-- Witness of C19: the weighting `(1 0)` is not square, so the result for the `2 x 1`
matrix `A` is the `1 x 2` zero matrix. -/
theorem get_inverse_weighted_shape_check_witness :
    get_inverse_weighted diagonalSVD tallMatrix wideMatrix = some 0 :=
  (get_inverse_weighted_shape_check diagonalSVD tallMatrix wideMatrix).1 (by decide)

/-- C20: for the tall `2 x 1` matrix with column `(1, 0)` the loop of `get_inverse` runs
over `j < 2`, while there is `min 2 1 = 1` singular value and `V` is `1 x 1`: the reads
`s(1)` and `V(0,1)` are out of range and there is no result, whatever the decomposition. -/
theorem get_inverse_tall_out_of_range (svd : SVDSolver ℚ) :
    get_inverse svd tallMatrix = none ∧ ¬ (1 < min 2 1) := by
  constructor
  · simp [get_inverse]
  · decide

end InverseChecks

section CartesianControl

variable {K : Type} [LinearOrderedField K]

/-- The result of `scale_velocity_vector` for two vectors of the same length. -/
private theorem scale_velocity_vector_of_eq (c : SerialKinCtrl K) (vec ref : List K)
    (h : vec.length = ref.length) :
    scale_velocity_vector c vec ref
      = (true, (scale_factor c ref).map (fun s => vec.map fun v => v * s),
          { c with vLim := (scale_velocity_loop c ref).1 }) := by
  have h' : ¬ vec.length ≠ ref.length := fun e => e h
  simp only [scale_velocity_vector, if_neg h']

/-- The pseudoinverse of lines 181-184 always has a value: the matrix passed to
`get_inverse` is `6 x 6`. -/
private theorem weighted_pseudoinverse_some (svd : SVDSolver K) (c : SerialKinCtrl K) :
    ∃ inner, get_inverse svd (c.robot.get_jacobian c.n
          * (get_joint_limit_weighting c * (c.robot.get_jacobian c.n).transpose)) = some inner
      ∧ weighted_pseudoinverse svd c
          = some (get_joint_limit_weighting c * (c.robot.get_jacobian c.n).transpose * inner) := by
  obtain ⟨inner, h⟩ := get_inverse_square_some svd (c.robot.get_jacobian c.n
    * (get_joint_limit_weighting c * (c.robot.get_jacobian c.n).transpose))
  refine ⟨inner, h, ?_⟩
  simp only [weighted_pseudoinverse, h, Option.map_some']

/-- The result of `get_cartesian_control` for a robot with at most six joints. -/
private theorem get_cartesian_control_of_le (lib : Library K) (svd : SVDSolver K)
    (c : SerialKinCtrl K) (time : K) (hn : c.n ≤ 6) :
    ∃ inner, get_inverse svd (c.robot.get_jacobian c.n
          * (get_joint_limit_weighting c * (c.robot.get_jacobian c.n).transpose)) = some inner
      ∧ get_cartesian_control lib svd c time
          = some ((scale_factor c (List.ofFn
                ((get_joint_limit_weighting c * (c.robot.get_jacobian c.n).transpose
                  * inner).mulVec (desired_task_velocity lib c time)))).map
                (fun s => List.ofFn fun i => s *
                  (get_joint_limit_weighting c * (c.robot.get_jacobian c.n).transpose
                    * inner).mulVec (desired_task_velocity lib c time) i),
              { c with vLim := (scale_velocity_loop c (List.ofFn
                ((get_joint_limit_weighting c * (c.robot.get_jacobian c.n).transpose
                  * inner).mulVec (desired_task_velocity lib c time)))).1 }) := by
  obtain ⟨inner, hinner, h⟩ := weighted_pseudoinverse_some svd c
  refine ⟨inner, hinner, ?_⟩
  simp only [get_cartesian_control, h, Option.some_bind, hn, if_true,
    scale_velocity_vector_of_eq _ _ _ rfl, List.map_ofFn]
  congr 3
  funext s
  congr 1
  funext i
  simp only [Function.comp_apply, mul_comm]

private theorem getD_eq_zero_of_forall (l : List K) (h : ∀ x ∈ l, x = 0) (i : ℕ) :
    l.getD i 0 = 0 := by
  rw [List.getD_eq_getElem?_getD]
  cases hi : l[i]? with
  | none => rfl
  | some x => exact h x (List.getElem?_mem hi)

/-- When no joint moves, `get_joint_limit_weighting` returns the identity matrix. -/
private theorem get_joint_limit_weighting_at_rest (c : SerialKinCtrl K)
    (h : ∀ i, c.robot.get_joint_velocity i = 0) : get_joint_limit_weighting c = 1 := by
  rw [← Matrix.diagonal_one]
  have e : (fun i : Fin c.n =>
      joint_limit_weight (c.pLim.getD i (0, 0)).1 (c.pLim.getD i (0, 0)).2
        (c.robot.get_joint_position i) (c.robot.get_joint_velocity i)) = fun _ => 1 := by
    funext i
    simp [joint_limit_weight, h]
  unfold get_joint_limit_weighting
  rw [e]

/-- With the decomposition `diagonalSVD`, `get_inverse` of a square matrix inverts the
entries of the main diagonal that exceed `1e-6`. -/
private theorem get_inverse_diagonalSVD {n : ℕ} (A : Matrix (Fin n) (Fin n) K) :
    get_inverse diagonalSVD A
      = some (Matrix.diagonal fun j => if 1 / 1000000 < A j j then 1 / A j j else 0) := by
  simp only [get_inverse, le_refl, dite_true, gt_iff_lt]
  congr 1
  ext i j
  have hc : Fin.castLE (le_refl n) j = j := Fin.ext rfl
  simp only [diagonalSVD, Matrix.transpose_one, Matrix.mul_one, Matrix.of_apply, hc,
    Fin.coe_cast, Fin.eta, Matrix.diagonal_apply, Matrix.one_apply]
  by_cases hij : i = j
  · subst hij
    simp
  · simp [hij]

private theorem trackingController_W : get_joint_limit_weighting trackingController = 1 :=
  get_joint_limit_weighting_at_rest trackingController (fun i =>
    getD_eq_zero_of_forall _ (fun x hx => by
      simpa [trackingController, SerialKinCtrl.new, twoJointRobot] using hx) i)

private theorem trackingController_JWJt :
    trackingController.robot.get_jacobian trackingController.n
        * (get_joint_limit_weighting trackingController
          * (trackingController.robot.get_jacobian trackingController.n).transpose)
      = Matrix.diagonal fun i : Fin 6 => if (i : ℕ) < 2 then (1 : ℚ) else 0 := by
  rw [trackingController_W, Matrix.one_mul]
  ext i k
  fin_cases i <;> fin_cases k <;>
    simp [Matrix.mul_apply, Fin.sum_univ_succ, SerialLink.get_jacobian, trackingController,
      SerialKinCtrl.new, twoJointRobot, Fin.coe_ofNat_eq_mod]

private theorem trackingController_inner :
    get_inverse diagonalSVD (trackingController.robot.get_jacobian trackingController.n
        * (get_joint_limit_weighting trackingController
          * (trackingController.robot.get_jacobian trackingController.n).transpose))
      = some (Matrix.diagonal fun i : Fin 6 => if (i : ℕ) < 2 then (1 : ℚ) else 0) := by
  rw [trackingController_JWJt, get_inverse_diagonalSVD]
  simp only [Matrix.diagonal_apply_eq]
  have e : (fun j : Fin 6 => if 1 / 1000000 < (if (j : ℕ) < 2 then (1 : ℚ) else 0)
        then 1 / (if (j : ℕ) < 2 then (1 : ℚ) else 0) else 0)
      = fun j : Fin 6 => if (j : ℕ) < 2 then (1 : ℚ) else 0 := by
    funext j
    split_ifs <;> norm_num at *
  rw [e]

/-- The weighted pseudoinverse of the two-joint robot maps a task-space velocity to its
first two components. -/
private theorem trackingController_range_space (v : Fin 6 → ℚ) :
    List.ofFn ((get_joint_limit_weighting trackingController
        * (trackingController.robot.get_jacobian trackingController.n).transpose
        * Matrix.diagonal fun i : Fin 6 => if (i : ℕ) < 2 then (1 : ℚ) else 0).mulVec v)
      = [v 0, v 1] := by
  rw [trackingController_W, Matrix.one_mul]
  simp [List.ofFn_succ, Matrix.mulVec, Matrix.dotProduct, Matrix.mul_apply,
    Fin.sum_univ_succ, SerialLink.get_jacobian, trackingController, SerialKinCtrl.new,
    twoJointRobot, Matrix.diagonal_apply, Fin.coe_ofNat_eq_mod]

private theorem trackingController_task_velocity :
    desired_task_velocity exampleLibrary trackingController 0
      = fun i : Fin 6 =>
          if (i : ℕ) = 0 then (1 / 4 : ℚ) else if (i : ℕ) = 1 then -9 / 20 else 0 := by
  funext i
  fin_cases i <;>
    norm_num [desired_task_velocity, get_pose_error, exampleLibrary, trackingController,
      SerialKinCtrl.new, twoJointRobot, SerialLink.get_endpoint_pose, Isometry3.identity,
      Isometry3.mul, Isometry3.inverse, Isometry3.rotation, Fin.coe_ofNat_eq_mod,
      Matrix.one_apply] <;> simp

/-- C14: the two-joint robot with velocity limits `(1, 1)` tracking a trajectory with
desired task velocity `(0.25, -0.45, 0, 0, 0, 0)` and no pose error: the range-space
velocity is `(0.25, -0.45)`, `scale_velocity_vector` multiplies it by `-3.96`, and
`get_cartesian_control` returns `(-0.99, 1.782)`, whose second component exceeds the
limit `1`. -/
theorem get_cartesian_control_exceeds_limit :
    trackingController.vLim = [1, 1]
      ∧ (∃ c', get_cartesian_control exampleLibrary diagonalSVD trackingController 0
          = some (some [-99 / 100, 891 / 500], c'))
      ∧ ¬ |(891 / 500 : ℚ)| ≤ 1 := by
  refine ⟨rfl, ?_, by norm_num [abs_of_pos]⟩
  obtain ⟨inner, hinner, hres⟩ :=
    get_cartesian_control_of_le exampleLibrary diagonalSVD trackingController 0 (by decide)
  have e : inner = Matrix.diagonal fun i : Fin 6 => if (i : ℕ) < 2 then (1 : ℚ) else 0 :=
    Option.some.inj (hinner.symm.trans trackingController_inner)
  subst e
  have hl := trackingController_range_space
    (desired_task_velocity exampleLibrary trackingController 0)
  rw [trackingController_task_velocity] at hl
  have hl2 : List.ofFn ((get_joint_limit_weighting trackingController
        * (trackingController.robot.get_jacobian trackingController.n).transpose
        * Matrix.diagonal fun i : Fin 6 => if (i : ℕ) < 2 then (1 : ℚ) else 0).mulVec
          (fun i : Fin 6 =>
            if (i : ℕ) = 0 then (1 / 4 : ℚ) else if (i : ℕ) = 1 then -9 / 20 else 0))
      = [1 / 4, -9 / 20] := by
    rw [hl]; norm_num
  rw [trackingController_task_velocity] at hres
  have hs : scale_factor trackingController [1 / 4, -9 / 20] = some (-99 / 25) := by
    norm_num [scale_factor, scale_velocity_loop, scale_velocity_step, trackingController,
      SerialKinCtrl.new, twoJointRobot, List.range_succ, SerialLink.get_velocity_limits]
  have hm : (List.ofFn fun i => (-99 / 25 : ℚ) *
      (get_joint_limit_weighting trackingController
        * (trackingController.robot.get_jacobian trackingController.n).transpose
        * Matrix.diagonal fun i : Fin 6 => if (i : ℕ) < 2 then (1 : ℚ) else 0).mulVec
          (fun i : Fin 6 =>
            if (i : ℕ) = 0 then (1 / 4 : ℚ) else if (i : ℕ) = 1 then -9 / 20 else 0) i)
      = [-99 / 100, 891 / 500] := by
    have h := congrArg (List.map fun x => (-99 / 25 : ℚ) * x) hl2
    rw [List.map_ofFn] at h
    refine Eq.trans ?_ (h.trans (by norm_num))
    rfl
  rw [hl2, hs, Option.map_some', hm] at hres
  exact ⟨_, hres⟩

end CartesianControl

section Setters

variable {K : Type} [LinearOrderedField K]

/-- The controller left by `scale_velocity_vector` differs from the given one in the stored
velocity limits at most. -/
private theorem scale_velocity_vector_state (c : SerialKinCtrl K) (vec ref : List K) :
    ∃ v, (scale_velocity_vector c vec ref).2.2 = { c with vLim := v } := by
  by_cases h : vec.length ≠ ref.length
  · exact ⟨c.vLim, by simp only [scale_velocity_vector, if_pos h]⟩
  · exact ⟨(scale_velocity_loop c ref).1, by simp only [scale_velocity_vector, if_neg h]⟩

/-- The controller left by `get_cartesian_control` differs from the given one in the stored
velocity limits at most. -/
private theorem get_cartesian_control_state (lib : Library K) (svd : SVDSolver K)
    (c c' : SerialKinCtrl K) (time : K) (qdot : Option (List K))
    (h : get_cartesian_control lib svd c time = some (qdot, c')) :
    ∃ v, c' = { c with vLim := v } := by
  unfold get_cartesian_control at h
  cases hinv : weighted_pseudoinverse svd c with
  | none => rw [hinv] at h; simp at h
  | some invJ =>
    rw [hinv] at h
    simp only [Option.some_bind] at h
    by_cases hn : c.n ≤ 6
    · simp only [hn, if_true, Option.some.injEq, Prod.mk.injEq] at h
      obtain ⟨v, hv⟩ := scale_velocity_vector_state c
        (List.ofFn (invJ.mulVec (desired_task_velocity lib c time)))
        (List.ofFn (invJ.mulVec (desired_task_velocity lib c time)))
      exact ⟨v, by rw [← h.2, hv]⟩
    · simp only [hn, if_false] at h
      cases hg : optimise_manipulability lib svd c (1 / 2) (c.robot.get_jacobian c.n) with
      | none => rw [hg] at h; simp at h
      | some grad =>
        rw [hg] at h
        simp only [Option.map_some', Option.some.injEq] at h
        obtain ⟨v1, hv1⟩ := scale_velocity_vector_state c
          (List.ofFn (invJ.mulVec (desired_task_velocity lib c time)))
          (List.ofFn (invJ.mulVec (desired_task_velocity lib c time)))
        rw [hv1] at h
        cases hq : (scale_velocity_vector c
            (List.ofFn (invJ.mulVec (desired_task_velocity lib c time)))
            (List.ofFn (invJ.mulVec (desired_task_velocity lib c time)))).2.1 with
        | none =>
          rw [hq] at h
          simp only [Prod.mk.injEq] at h
          obtain ⟨v2, hv2⟩ := scale_velocity_vector_state { c with vLim := v1 }
            (List.ofFn (((1 - invJ * c.robot.get_jacobian c.n)
              * get_joint_limit_weighting c).mulVec grad))
            (List.ofFn (((1 - invJ * c.robot.get_jacobian c.n)
              * get_joint_limit_weighting c).mulVec grad))
          exact ⟨v2, by rw [← h.2, hv2]⟩
        | some qdot_R =>
          rw [hq] at h
          simp only [Prod.mk.injEq] at h
          obtain ⟨v2, hv2⟩ := scale_velocity_vector_state { c with vLim := v1 }
            (List.ofFn (((1 - invJ * c.robot.get_jacobian c.n)
              * get_joint_limit_weighting c).mulVec grad))
            (List.zipWith (fun a b => a + b) qdot_R
              (List.ofFn (((1 - invJ * c.robot.get_jacobian c.n)
                * get_joint_limit_weighting c).mulVec grad)))
          exact ⟨v2, by rw [← h.2, hv2]⟩

/-- C21: the feedback gain is `1` after construction; `set_feedback_gain(g)` returns
`false` exactly when `g < 0`, leaving the controller unchanged, and otherwise returns `true`
with `k = g`; so `k >= 0` in every reachable state. -/
theorem feedback_gain_nonneg :
    (∀ (serial : SerialLink K) (n : ℕ), (SerialKinCtrl.new serial n).k = 1)
      ∧ (∀ (c : SerialKinCtrl K) (g : K),
          ((set_feedback_gain c g).1 = false ↔ g < 0)
            ∧ (g < 0 → set_feedback_gain c g = (false, c))
            ∧ (¬ g < 0 → set_feedback_gain c g = (true, { c with k := g })))
      ∧ (∀ (lib : Library K) (svd : SVDSolver K) (c : SerialKinCtrl K),
          Reachable lib svd c → 0 ≤ c.k) := by
  refine ⟨fun _ _ => rfl, ?_, ?_⟩
  · intro c g
    by_cases h : g < 0
    · simp [set_feedback_gain, h]
    · simp [set_feedback_gain, h]
  · intro lib svd c hc
    induction hc with
    | construct serial n => exact zero_le_one
    | joint_target c target _ ih =>
      by_cases h : target.length ≠ c.n
      · simpa only [set_joint_target, if_pos h] using ih
      · simpa only [set_joint_target, if_neg h] using ih
    | feedback_gain c g _ ih =>
      by_cases h : g < 0
      · simpa only [set_feedback_gain, if_pos h] using ih
      · simpa only [set_feedback_gain, if_neg h] using not_lt.mp h
    | target_pose c target time _ ih =>
      by_cases h : time ≤ 0
      · simpa only [set_target_pose, if_pos h] using ih
      · simpa only [set_target_pose, if_neg h] using ih
    | cartesian_control c c' time qdot _ hq ih =>
      obtain ⟨v, hv⟩ := get_cartesian_control_state lib svd c c' time qdot hq
      rw [hv]
      exact ih

/-- Witness of C21: a negative gain is refused and the gain stays `1`; the gain `2` is
accepted. -/
theorem feedback_gain_nonneg_witness :
    set_feedback_gain (SerialKinCtrl.new oneJointRobot 1) (-1)
        = (false, SerialKinCtrl.new oneJointRobot 1)
      ∧ (set_feedback_gain (SerialKinCtrl.new oneJointRobot 1) 2).2.k = 2
      ∧ (0 : ℚ) ≤ (set_feedback_gain (SerialKinCtrl.new oneJointRobot 1) 2).2.k := by
  have h := feedback_gain_nonneg.2.1 (SerialKinCtrl.new oneJointRobot 1)
  refine ⟨(h (-1)).2.1 (by norm_num), ?_, ?_⟩
  · rw [(h 2).2.2 (by norm_num)]
  · exact feedback_gain_nonneg.2.2 exampleLibrary diagonalSVD _
      (Reachable.feedback_gain _ 2 (Reachable.construct oneJointRobot 1))

/-- C22: for a target whose length differs from the joint count `set_joint_target` returns
`false` and leaves the target vector and the controller, with its stored joint trajectory,
unchanged; for a target of length `n` it returns `true`. -/
theorem set_joint_target_length_check (c : SerialKinCtrl K) (target : List K) :
    (target.length ≠ c.n → set_joint_target c target = (false, target, c))
      ∧ (target.length = c.n → (set_joint_target c target).1 = true) := by
  constructor
  · intro h
    simp only [set_joint_target, if_pos h]
  · intro h
    have h' : ¬ target.length ≠ c.n := fun e => e h
    simp only [set_joint_target, if_neg h']

/-- Witness of C22: a target of length `2` for the one-joint robot. -/
theorem set_joint_target_length_check_witness :
    set_joint_target (SerialKinCtrl.new oneJointRobot 1) [1 / 2, 1 / 2]
      = (false, [1 / 2, 1 / 2], SerialKinCtrl.new oneJointRobot 1) :=
  (set_joint_target_length_check (SerialKinCtrl.new oneJointRobot 1) [1 / 2, 1 / 2]).1
    (by decide)

/-- C23: for a time `<= 0` `set_target_pose` returns `false` and leaves the time argument
and the controller, with its stored Cartesian trajectory, unchanged; for a time `> 0` it
returns `true`. -/
theorem set_target_pose_time_check (lib : Library K) (c : SerialKinCtrl K)
    (target : Isometry3 K) (time : K) :
    (time ≤ 0 → set_target_pose lib c target time = (false, time, c))
      ∧ (0 < time → (set_target_pose lib c target time).1 = true) := by
  constructor
  · intro h
    simp only [set_target_pose, if_pos h]
  · intro h
    simp only [set_target_pose, if_neg (not_le.mpr h)]

/-- Witness of C23: the time `0` is refused; the time `1` for a target `2` away is accepted
although it has to be enlarged. -/
theorem set_target_pose_time_check_witness :
    set_target_pose exampleLibrary (SerialKinCtrl.new oneJointRobot 1) (translationPose 2) 0
        = (false, 0, SerialKinCtrl.new oneJointRobot 1)
      ∧ (set_target_pose exampleLibrary (SerialKinCtrl.new oneJointRobot 1)
          (translationPose 2) 1).1 = true :=
  ⟨(set_target_pose_time_check exampleLibrary (SerialKinCtrl.new oneJointRobot 1)
      (translationPose 2) 0).1 (le_refl 0),
    (set_target_pose_time_check exampleLibrary (SerialKinCtrl.new oneJointRobot 1)
      (translationPose 2) 1).2 one_pos⟩

end Setters

section Gains

/-- C27: `set_cartesian_gains` returns `false` for every pair of gains: for the
non-negative pair stiffness `2`, damping `0.5` it sets the damping matrix to
`0.5*gainFormat` and the stiffness matrix to `2*gainFormat`, and then returns `false`. -/
theorem set_cartesian_gains_returns_false :
    (∀ (s : SerialLinkBase ℚ) (stiffness damping : ℚ),
        (SerialLinkBase.set_cartesian_gains s stiffness damping).1 = false)
      ∧ SerialLinkBase.set_cartesian_gains (SerialLinkBase.initial : SerialLinkBase ℚ) 2 (1 / 2)
          = (false,
              { (SerialLinkBase.initial : SerialLinkBase ℚ) with
                D := (1 / 2 : ℚ) • SerialLinkBase.defaultGainFormat
                K := (2 : ℚ) • SerialLinkBase.defaultGainFormat }) := by
  constructor
  · intro s a b
    unfold SerialLinkBase.set_cartesian_gains
    split_ifs <;> rfl
  · have h : ¬ ((2 : ℚ) < 0 ∨ (1 / 2 : ℚ) < 0) := by norm_num
    simp only [SerialLinkBase.set_cartesian_gains, if_neg h, SerialLinkBase.initial]

private theorem norm_sub_transpose_of_symmetric (F : Matrix (Fin 6) (Fin 6) ℚ)
    (h : F.transpose = F) : SerialLinkBase.norm exampleLibrary (F - F.transpose) = 0 := by
  rw [h, sub_self]
  simp [SerialLinkBase.norm, exampleLibrary]

private theorem norm_sub_transpose_skewedFormat :
    SerialLinkBase.norm exampleLibrary (skewedFormat - skewedFormat.transpose) = 1 := by
  simp [SerialLinkBase.norm, exampleLibrary, skewedFormat, Fin.sum_univ_succ,
    Matrix.sub_apply, Matrix.transpose_apply, Fin.ext_iff]
  norm_num

/-- C28: `set_cartesian_gain_format` takes the branch that returns `false` when the norm of
`format - formatᵀ` is below `1e-4`: the symmetric positive-definite formats
`diag(1, 1, 1, 0.1, 0.1, 0.1)` and the identity are refused, and the identity is not
stored, while a format that is not symmetric is accepted and stored. -/
theorem set_cartesian_gain_format_inverted :
    (SerialLinkBase.defaultGainFormat : Matrix (Fin 6) (Fin 6) ℚ).transpose
        = SerialLinkBase.defaultGainFormat
      ∧ SerialLinkBase.set_cartesian_gain_format exampleLibrary SerialLinkBase.initial
          SerialLinkBase.defaultGainFormat = (false, SerialLinkBase.initial)
      ∧ SerialLinkBase.set_cartesian_gain_format exampleLibrary SerialLinkBase.initial
          (1 : Matrix (Fin 6) (Fin 6) ℚ) = (false, SerialLinkBase.initial)
      ∧ skewedFormat.transpose ≠ skewedFormat
      ∧ SerialLinkBase.set_cartesian_gain_format exampleLibrary SerialLinkBase.initial
          skewedFormat
        = (true, { (SerialLinkBase.initial : SerialLinkBase ℚ) with
            gainFormat := skewedFormat }) := by
  have hd : (SerialLinkBase.defaultGainFormat : Matrix (Fin 6) (Fin 6) ℚ).transpose
      = SerialLinkBase.defaultGainFormat := by
    simp [SerialLinkBase.defaultGainFormat, Matrix.diagonal_transpose]
  refine ⟨hd, ?_, ?_, ?_, ?_⟩
  · simp only [SerialLinkBase.set_cartesian_gain_format,
      norm_sub_transpose_of_symmetric _ hd]
    norm_num
  · simp only [SerialLinkBase.set_cartesian_gain_format,
      norm_sub_transpose_of_symmetric _ (Matrix.transpose_one)]
    norm_num
  · intro h
    have := congrFun (congrFun h 0) 1
    simp [skewedFormat, Matrix.transpose_apply] at this
  · simp only [SerialLinkBase.set_cartesian_gain_format, norm_sub_transpose_skewedFormat]
    norm_num

end Gains

section Manipulability

variable {K : Type} [LinearOrderedField K]

/-- C24: for a `scalar <= 0` `optimise_manipulability` returns the zero vector of length
`n`; for a `scalar > 0` (and a robot with at least one joint) it returns the vector whose
component `0` is `0` and whose component `i >= 1` is
`scalar * sqrt(det(J*Jᵀ)) * trace(dJ_i * J⁺)`, where `dJ_i` is the partial derivative of
`J` with respect to joint `i` and `J⁺ = Jᵀ * get_inverse(J*Jᵀ)`. -/
theorem optimise_manipulability_gradient (lib : Library K) (svd : SVDSolver K)
    (c : SerialKinCtrl K) (scalar : K) (J : Matrix (Fin 6) (Fin c.n) K) :
    (scalar ≤ 0 → optimise_manipulability lib svd c scalar J = some fun _ => 0)
      ∧ (0 < scalar → 0 < c.n → ∃ inv grad,
          get_inverse svd (J * J.transpose) = some inv
            ∧ optimise_manipulability lib svd c scalar J = some grad
            ∧ ∀ i : Fin c.n,
                ((i : ℕ) = 0 → grad i = 0)
                  ∧ (1 ≤ (i : ℕ) → grad i
                      = scalar * lib.sqrt (J * J.transpose).det
                        * (c.robot.get_partial_derivative J i
                            * (J.transpose * inv)).trace)) := by
  obtain ⟨inv, hinv⟩ := get_inverse_square_some svd (J * J.transpose)
  constructor
  · intro h
    simp only [optimise_manipulability, hinv, Option.some_bind, if_pos h]
  · intro h hn
    have h0 : ¬ scalar ≤ 0 := not_le.mpr h
    have hn0 : ¬ c.n = 0 := by omega
    refine ⟨inv, fun i => if (i : ℕ) = 0 then 0
        else scalar * lib.sqrt (J * J.transpose).det
          * (c.robot.get_partial_derivative J i * (J.transpose * inv)).trace, hinv, by
      simp only [optimise_manipulability, hinv, Option.some_bind, h0, hn0, if_false], ?_⟩
    intro i
    constructor
    · intro hi
      simp only [hi, if_true]
    · intro hi
      have hi0 : ¬ (i : ℕ) = 0 := by omega
      simp only [hi0, if_false]

/-- Witness of C24: the seven-joint robot with `scalar = 0.5`, as in
`get_cartesian_control`; its Jacobian is constant, so the gradient vanishes. -/
theorem optimise_manipulability_gradient_witness :
    ∃ grad,
      optimise_manipulability exampleLibrary diagonalSVD redundantController (1 / 2)
          (redundantController.robot.get_jacobian redundantController.n) = some grad
      ∧ grad ⟨0, Nat.succ_pos 6⟩ = 0
      ∧ grad ⟨1, Nat.succ_lt_succ (Nat.succ_pos 5)⟩ = 0 := by
  obtain ⟨inv, grad, _, hgrad, hi⟩ :=
    (optimise_manipulability_gradient exampleLibrary diagonalSVD redundantController
      (1 / 2) (redundantController.robot.get_jacobian redundantController.n)).2
      (by norm_num) (Nat.succ_pos 6)
  refine ⟨grad, hgrad, (hi ⟨0, Nat.succ_pos 6⟩).1 rfl, ?_⟩
  rw [(hi ⟨1, Nat.succ_lt_succ (Nat.succ_pos 5)⟩).2 (le_refl 1)]
  simp [SerialLink.get_partial_derivative, redundantController, SerialKinCtrl.new,
    sevenJointRobot]

/-- C25: for a pose `P` whose linear part `R` is a rotation (`R * Rᵀ = 1`), and a library
whose quaternion of the identity rotation has vector part `0`, `get_pose_error(P, P)` is
the zero 6-vector. -/
theorem get_pose_error_self (lib : Library K) (P : Isometry3 K)
    (hR : P.linear * P.linear.transpose = 1) (hq : lib.vec 1 = 0) :
    get_pose_error lib P P = 0 := by
  funext i
  simp only [get_pose_error, Isometry3.mul, Isometry3.inverse, Isometry3.rotation, hR, hq,
    sub_self, Pi.zero_apply, dite_eq_ite, ite_self]

/-- Witness of C25: the pose translated by `2` along the first axis. -/
theorem get_pose_error_self_witness :
    get_pose_error exampleLibrary (translationPose 2) (translationPose 2) = 0 :=
  get_pose_error_self exampleLibrary (translationPose 2)
    (by simp [translationPose])
    (by
      funext i
      fin_cases i <;> simp [exampleLibrary])

end Manipulability

section Penalty

variable {K : Type} [LinearOrderedField K]

/-- Inside the limits the value written to `W(i,i)` is `1/p` or `1`, without the clamp. -/
private theorem joint_limit_weight_inside (lo hi q qdot : K) (hlo : lo < q) (hhi : q < hi) :
    joint_limit_weight lo hi q qdot
      = if 0 < (hi - lo) * (hi - lo) * (2 * q - hi - lo)
              / (4 * (hi - q) * (hi - q) * (q - lo) * (q - lo)) * qdot
        then 1 / ((hi - lo) * (hi - lo) / (4 * (hi - q) * (q - lo))) else 1 := by
  have hp := one_le_penalty lo hi q hlo hhi
  simp only [joint_limit_weight, gt_iff_lt, if_neg (not_lt.mpr hp)]

/-- Inside the limits the value written to `W(i,i)` lies in `(0, 1]`. -/
private theorem joint_limit_weight_bounds (lo hi q qdot : K) (hlo : lo < q) (hhi : q < hi) :
    0 < joint_limit_weight lo hi q qdot ∧ joint_limit_weight lo hi q qdot ≤ 1 := by
  have hp := one_le_penalty lo hi q hlo hhi
  have hp0 : 0 < (hi - lo) * (hi - lo) / (4 * (hi - q) * (q - lo)) :=
    lt_of_lt_of_le zero_lt_one hp
  rw [joint_limit_weight_inside lo hi q qdot hlo hhi]
  split_ifs
  · exact ⟨one_div_pos.mpr hp0, (div_le_one hp0).mpr hp⟩
  · exact ⟨zero_lt_one, le_refl 1⟩

/-- C26 fails as stated: for the joint with limits `[-1, 1]` at `q = 0.75`, strictly inside
its limits and moving with velocity `1`, the diagonal entry of `W` is `7/16`, below `1`. -/
theorem get_joint_limit_weighting_below_one :
    ((SerialKinCtrl.new approachingJointRobot 1).pLim.getD 0 (0, 0)).1
        < (SerialKinCtrl.new approachingJointRobot 1).robot.get_joint_position 0
      ∧ (SerialKinCtrl.new approachingJointRobot 1).robot.get_joint_position 0
          < ((SerialKinCtrl.new approachingJointRobot 1).pLim.getD 0 (0, 0)).2
      ∧ get_joint_limit_weighting (SerialKinCtrl.new approachingJointRobot 1)
          ⟨0, Nat.one_pos⟩ ⟨0, Nat.one_pos⟩ = 7 / 16
      ∧ ¬ ((1 : ℚ) ≤ get_joint_limit_weighting (SerialKinCtrl.new approachingJointRobot 1)
          ⟨0, Nat.one_pos⟩ ⟨0, Nat.one_pos⟩) := by
  have h : get_joint_limit_weighting (SerialKinCtrl.new approachingJointRobot 1)
      ⟨0, Nat.one_pos⟩ ⟨0, Nat.one_pos⟩ = 7 / 16 := by
    norm_num [get_joint_limit_weighting, joint_limit_weight, SerialKinCtrl.new,
      approachingJointRobot, SerialLink.get_position_limits, SerialLink.get_joint_position,
      SerialLink.get_joint_velocity]
  refine ⟨?_, ?_, h, ?_⟩
  · norm_num [SerialKinCtrl.new, approachingJointRobot, SerialLink.get_position_limits,
      SerialLink.get_joint_position]
  · norm_num [SerialKinCtrl.new, approachingJointRobot, SerialLink.get_position_limits,
      SerialLink.get_joint_position]
  · rw [h]; norm_num

/-- C26, amended: when every joint position is strictly inside its limits, the matrix
returned by `get_joint_limit_weighting` is diagonal with diagonal entries in `(0, 1]`: the
entry is the reciprocal of the penalty, `1` meaning no penalty and a smaller value a
stronger penalty. -/
theorem get_joint_limit_weighting_le_one (c : SerialKinCtrl K)
    (hin : ∀ i : Fin c.n, (c.pLim.getD i (0, 0)).1 < c.robot.get_joint_position i
      ∧ c.robot.get_joint_position i < (c.pLim.getD i (0, 0)).2) :
    (∀ i j, i ≠ j → get_joint_limit_weighting c i j = 0)
      ∧ ∀ i, 0 < get_joint_limit_weighting c i i ∧ get_joint_limit_weighting c i i ≤ 1 := by
  refine ⟨fun i j hij => Matrix.diagonal_apply_ne _ hij, fun i => ?_⟩
  simp only [get_joint_limit_weighting, Matrix.diagonal_apply_eq]
  exact joint_limit_weight_bounds _ _ _ _ (hin i).1 (hin i).2

private theorem approachingJointRobot_inside :
    ∀ i : Fin (SerialKinCtrl.new approachingJointRobot 1).n,
      ((SerialKinCtrl.new approachingJointRobot 1).pLim.getD i (0, 0)).1
          < (SerialKinCtrl.new approachingJointRobot 1).robot.get_joint_position i
        ∧ (SerialKinCtrl.new approachingJointRobot 1).robot.get_joint_position i
          < ((SerialKinCtrl.new approachingJointRobot 1).pLim.getD i (0, 0)).2 := by
  intro i
  have hi : i = ⟨0, Nat.one_pos⟩ := Fin.ext (Nat.lt_one_iff.mp i.isLt)
  subst hi
  norm_num [SerialKinCtrl.new, approachingJointRobot, SerialLink.get_position_limits,
    SerialLink.get_joint_position]

/-- Witness of the amended C26: the joint at `q = 0.75` moving toward its upper limit. -/
theorem get_joint_limit_weighting_le_one_witness :
    0 < get_joint_limit_weighting (SerialKinCtrl.new approachingJointRobot 1)
        ⟨0, Nat.one_pos⟩ ⟨0, Nat.one_pos⟩
      ∧ get_joint_limit_weighting (SerialKinCtrl.new approachingJointRobot 1)
        ⟨0, Nat.one_pos⟩ ⟨0, Nat.one_pos⟩ ≤ 1 :=
  (get_joint_limit_weighting_le_one (SerialKinCtrl.new approachingJointRobot 1)
    approachingJointRobot_inside).2 ⟨0, Nat.one_pos⟩

/-- C29: for a joint `i` with `lo < q < hi`, the penalty
`p = (hi-lo)^2 / (4*(hi-q)*(q-lo))` computed in `get_joint_limit_weighting` satisfies
`p >= 1`, with equality exactly at the midpoint; the test `penalty < 1` is false, the
divisors `4*upper*upper*lower*lower`, `4*upper*lower` and `penalty` are non-zero, and the
diagonal entry `W(i,i)` lies in `(0, 1]`. -/
theorem penalty_ge_one (c : SerialKinCtrl K) (i : Fin c.n)
    (hlo : (c.pLim.getD i (0, 0)).1 < c.robot.get_joint_position i)
    (hhi : c.robot.get_joint_position i < (c.pLim.getD i (0, 0)).2) :
    1 ≤ ((c.pLim.getD i (0, 0)).2 - (c.pLim.getD i (0, 0)).1) ^ 2
          / (4 * ((c.pLim.getD i (0, 0)).2 - c.robot.get_joint_position i)
            * (c.robot.get_joint_position i - (c.pLim.getD i (0, 0)).1))
      ∧ (((c.pLim.getD i (0, 0)).2 - (c.pLim.getD i (0, 0)).1) ^ 2
          / (4 * ((c.pLim.getD i (0, 0)).2 - c.robot.get_joint_position i)
            * (c.robot.get_joint_position i - (c.pLim.getD i (0, 0)).1)) = 1
          ↔ c.robot.get_joint_position i
            = ((c.pLim.getD i (0, 0)).1 + (c.pLim.getD i (0, 0)).2) / 2)
      ∧ ¬ (((c.pLim.getD i (0, 0)).2 - (c.pLim.getD i (0, 0)).1)
            * ((c.pLim.getD i (0, 0)).2 - (c.pLim.getD i (0, 0)).1)
          / (4 * ((c.pLim.getD i (0, 0)).2 - c.robot.get_joint_position i)
            * (c.robot.get_joint_position i - (c.pLim.getD i (0, 0)).1)) < 1)
      ∧ 4 * ((c.pLim.getD i (0, 0)).2 - c.robot.get_joint_position i)
          * ((c.pLim.getD i (0, 0)).2 - c.robot.get_joint_position i)
          * (c.robot.get_joint_position i - (c.pLim.getD i (0, 0)).1)
          * (c.robot.get_joint_position i - (c.pLim.getD i (0, 0)).1) ≠ 0
      ∧ 4 * ((c.pLim.getD i (0, 0)).2 - c.robot.get_joint_position i)
          * (c.robot.get_joint_position i - (c.pLim.getD i (0, 0)).1) ≠ 0
      ∧ ((c.pLim.getD i (0, 0)).2 - (c.pLim.getD i (0, 0)).1) ^ 2
          / (4 * ((c.pLim.getD i (0, 0)).2 - c.robot.get_joint_position i)
            * (c.robot.get_joint_position i - (c.pLim.getD i (0, 0)).1)) ≠ 0
      ∧ 0 < get_joint_limit_weighting c i i
      ∧ get_joint_limit_weighting c i i ≤ 1 := by
  have hW : 0 < get_joint_limit_weighting c i i ∧ get_joint_limit_weighting c i i ≤ 1 := by
    simp only [get_joint_limit_weighting, Matrix.diagonal_apply_eq]
    exact joint_limit_weight_bounds _ _ _ _ hlo hhi
  generalize get_joint_limit_weighting c i i = w at hW ⊢
  generalize (c.pLim.getD i (0, 0)).1 = lo at *
  generalize (c.pLim.getD i (0, 0)).2 = hi at *
  generalize c.robot.get_joint_position i = q at *
  have hu : 0 < hi - q := sub_pos.mpr hhi
  have hl : 0 < q - lo := sub_pos.mpr hlo
  have hp := one_le_penalty lo hi q hlo hhi
  have hD : 0 < 4 * (hi - q) * (q - lo) := by positivity
  have hpe : (hi - lo) ^ 2 / (4 * (hi - q) * (q - lo))
      = (hi - lo) * (hi - lo) / (4 * (hi - q) * (q - lo)) := by rw [pow_two]
  rw [hpe]
  refine ⟨hp, ?_, not_lt.mpr hp, ne_of_gt (by positivity), ne_of_gt hD,
    ne_of_gt (lt_of_lt_of_le zero_lt_one hp), ?_⟩
  · rw [div_eq_one_iff_eq (ne_of_gt hD)]
    constructor
    · intro h
      have h0 : ((hi - q) - (q - lo)) ^ 2 = 0 := by nlinarith
      have h1 : (hi - q) - (q - lo) = 0 := by
        rcases pow_eq_zero_iff (two_ne_zero) |>.mp h0 with h2
        exact h2
      linarith
    · intro h
      rw [h]
      ring
  · exact hW

end Penalty

section Refinement

variable {K : Type} [LinearOrderedField K]

/-- The singular values of an exact decomposition of a diagonal matrix with entries `>= 1`
are `>= 1` when they are non-negative. -/
private theorem one_le_singular_values {n : ℕ} (d : JacobiSVD K n n) (p : Fin n → K)
    (hp : ∀ i, 1 ≤ p i) (hex : d.Exact (Matrix.diagonal p)) (hnn : ∀ j, 0 ≤ d.sq j) :
    ∀ j, 1 ≤ d.sq j := by
  obtain ⟨hU, hV, hA⟩ := hex
  rw [sigma_square] at hA
  have hPP : (Matrix.diagonal p).transpose * Matrix.diagonal p
      = d.matrixV * (Matrix.diagonal d.sq * Matrix.diagonal d.sq) * d.matrixV.transpose := by
    conv_lhs => rw [hA]
    rw [Matrix.transpose_mul, Matrix.transpose_mul, Matrix.transpose_transpose,
      Matrix.diagonal_transpose]
    calc d.matrixV * (Matrix.diagonal d.sq * d.matrixU.transpose)
          * (d.matrixU * Matrix.diagonal d.sq * d.matrixV.transpose)
        = d.matrixV * (Matrix.diagonal d.sq * (d.matrixU.transpose * d.matrixU)
            * Matrix.diagonal d.sq) * d.matrixV.transpose := by
          simp only [Matrix.mul_assoc]
      _ = _ := by rw [hU, Matrix.mul_one]
  have hkey : d.matrixV.transpose * ((Matrix.diagonal p).transpose * Matrix.diagonal p)
      * d.matrixV = Matrix.diagonal d.sq * Matrix.diagonal d.sq := by
    rw [hPP]
    calc d.matrixV.transpose
          * (d.matrixV * (Matrix.diagonal d.sq * Matrix.diagonal d.sq) * d.matrixV.transpose)
          * d.matrixV
        = (d.matrixV.transpose * d.matrixV) * (Matrix.diagonal d.sq * Matrix.diagonal d.sq)
            * (d.matrixV.transpose * d.matrixV) := by
          simp only [Matrix.mul_assoc]
      _ = _ := by rw [hV, Matrix.one_mul, Matrix.mul_one]
  intro j
  have hjj := congrFun (congrFun hkey j) j
  rw [Matrix.diagonal_transpose, Matrix.diagonal_mul_diagonal, Matrix.diagonal_mul_diagonal,
    Matrix.diagonal_apply_eq, Matrix.mul_apply] at hjj
  simp only [Matrix.mul_diagonal, Matrix.transpose_apply] at hjj
  have hone := congrFun (congrFun hV j) j
  rw [Matrix.mul_apply, Matrix.one_apply_eq] at hone
  simp only [Matrix.transpose_apply] at hone
  have hsum : (1 : K) ≤ d.sq j * d.sq j := by
    rw [← hjj, ← hone]
    apply Finset.sum_le_sum
    intro i _
    have h1 : 1 ≤ p i * p i := by nlinarith [hp i]
    have h2 : 0 ≤ d.matrixV i j * d.matrixV i j := mul_self_nonneg _
    nlinarith
  by_contra hlt
  have hlt' : d.sq j < 1 := not_le.mp hlt
  nlinarith [hnn j]

/-- C30: when every joint position is strictly inside its limits and the decomposition of
the penalty matrix `P = W⁻¹` is exact with non-negative singular values, the weighted
pseudoinverse `W*Jᵀ*get_inverse(J*W*Jᵀ)` that `get_cartesian_control` builds from
`W = get_joint_limit_weighting()` equals `get_inverse(J, P)`; the diagonal entries of `P`
are `>= 1`. -/
theorem weighted_pseudoinverse_eq_get_inverse (svd : SVDSolver K) (c : SerialKinCtrl K)
    (hin : ∀ i : Fin c.n, (c.pLim.getD i (0, 0)).1 < c.robot.get_joint_position i
      ∧ c.robot.get_joint_position i < (c.pLim.getD i (0, 0)).2)
    (hex : (svd c.n c.n (penalty_matrix c)).Exact (penalty_matrix c))
    (hnn : ∀ j, 0 ≤ (svd c.n c.n (penalty_matrix c)).singularValues j) :
    weighted_pseudoinverse svd c
        = get_inverse_weighted svd (c.robot.get_jacobian c.n) (penalty_matrix c)
      ∧ ∀ i, 1 ≤ penalty_matrix c i i := by
  have hw : ∀ i, 0 < get_joint_limit_weighting c i i ∧ get_joint_limit_weighting c i i ≤ 1 := by
    intro i
    simp only [get_joint_limit_weighting, Matrix.diagonal_apply_eq]
    exact joint_limit_weight_bounds _ _ _ _ (hin i).1 (hin i).2
  have hp : ∀ i, 1 ≤ 1 / get_joint_limit_weighting c i i := fun i =>
    (one_le_div (hw i).1).mpr (hw i).2
  have hP : ∀ i, 1 ≤ penalty_matrix c i i := by
    intro i
    simp only [penalty_matrix, Matrix.diagonal_apply_eq]
    exact hp i
  refine ⟨?_, hP⟩
  have hsq := one_le_singular_values (svd c.n c.n (penalty_matrix c))
    (fun i => 1 / get_joint_limit_weighting c i i) hp hex
    (fun j => hnn _)
  have hs : ∀ j, 1 / 1000000 < (svd c.n c.n (penalty_matrix c)).singularValues j := by
    intro j
    have h := hsq (Fin.cast (min_eq_left (le_refl c.n)) j)
    have e : (svd c.n c.n (penalty_matrix c)).sq (Fin.cast (min_eq_left (le_refl c.n)) j)
        = (svd c.n c.n (penalty_matrix c)).singularValues j := by
      simp only [JacobiSVD.sq]
      congr 1
    rw [e] at h
    exact lt_of_lt_of_le (by norm_num) h
  obtain ⟨B, hB, hBP, _⟩ := get_inverse_square_inverse svd (penalty_matrix c) hex hs
  have hWd : get_joint_limit_weighting c
      = Matrix.diagonal fun i => get_joint_limit_weighting c i i := by
    ext i j
    by_cases hij : i = j
    · subst hij; simp
    · simp only [Matrix.diagonal_apply_ne _ hij]
      exact Matrix.diagonal_apply_ne _ hij
  have hPW : penalty_matrix c * get_joint_limit_weighting c = 1 := by
    have e : penalty_matrix c
        * (Matrix.diagonal fun i => get_joint_limit_weighting c i i) = 1 := by
      unfold penalty_matrix
      rw [Matrix.diagonal_mul_diagonal]
      have f : (fun i => 1 / get_joint_limit_weighting c i i
          * get_joint_limit_weighting c i i) = fun _ => (1 : K) := by
        funext i
        field_simp [ne_of_gt (hw i).1]
      rw [f, Matrix.diagonal_one]
    rwa [← hWd] at e
  have hBW : B = get_joint_limit_weighting c := by
    calc B = B * (penalty_matrix c * get_joint_limit_weighting c) := by
          rw [hPW, Matrix.mul_one]
      _ = get_joint_limit_weighting c := by rw [← Matrix.mul_assoc, hBP, Matrix.one_mul]
  rw [get_inverse_weighted_square, hB, Option.some_bind, hBW]
  rfl

end Refinement

section RefinementWitness

/-- Witness of C29: limits `[-1, 1]` and `q = 0.5`: the penalty is `4/3`. -/
theorem penalty_ge_one_witness :
    (1 : ℚ) ≤ (1 - (-1)) ^ 2 / (4 * (1 - 1 / 2) * (1 / 2 - (-1)))
      ∧ 0 < get_joint_limit_weighting (SerialKinCtrl.new movingJointRobot 1)
          ⟨0, Nat.one_pos⟩ ⟨0, Nat.one_pos⟩
      ∧ get_joint_limit_weighting (SerialKinCtrl.new movingJointRobot 1)
          ⟨0, Nat.one_pos⟩ ⟨0, Nat.one_pos⟩ ≤ 1 := by
  have h := penalty_ge_one (SerialKinCtrl.new movingJointRobot 1) ⟨0, Nat.one_pos⟩
    (by norm_num [SerialKinCtrl.new, movingJointRobot, SerialLink.get_position_limits,
      SerialLink.get_joint_position])
    (by norm_num [SerialKinCtrl.new, movingJointRobot, SerialLink.get_position_limits,
      SerialLink.get_joint_position])
  refine ⟨?_, h.2.2.2.2.2.2.1, h.2.2.2.2.2.2.2⟩
  have h1 := h.1
  norm_num [SerialKinCtrl.new, movingJointRobot, SerialLink.get_position_limits,
    SerialLink.get_joint_position] at h1 ⊢

/-- Witness of C30: the one-joint robot at `q = 0.75` moving toward its upper limit, for
which `W = (7/16)` and `P = (16/7)`. -/
theorem weighted_pseudoinverse_eq_get_inverse_witness :
    weighted_pseudoinverse diagonalSVD (SerialKinCtrl.new approachingJointRobot 1)
      = get_inverse_weighted diagonalSVD
          ((SerialKinCtrl.new approachingJointRobot 1).robot.get_jacobian
            (SerialKinCtrl.new approachingJointRobot 1).n)
          (penalty_matrix (SerialKinCtrl.new approachingJointRobot 1)) := by
  refine (weighted_pseudoinverse_eq_get_inverse diagonalSVD
    (SerialKinCtrl.new approachingJointRobot 1) approachingJointRobot_inside
    (diagonalSVD_exact _ ?_) ?_).1
  · intro i j hij
    exact Matrix.diagonal_apply_ne _ (fun e => hij (congrArg _ e))
  · intro j
    simp only [diagonalSVD, penalty_matrix, Matrix.diagonal_apply_eq,
      get_joint_limit_weighting]
    exact one_div_nonneg.mpr (le_of_lt (joint_limit_weight_bounds _ _ _ _
      (approachingJointRobot_inside _).1 (approachingJointRobot_inside _).2).1)

end RefinementWitness

end RobotLibrary
